import Mathlib

/-!
Verification of the move-text interpreter of the `chessbot` repository
(`src/move_parser.py`, class `MoveParser`), against its natural-language
specification.

Python strings are modelled as lists of unicode scalar values (`PyStr`).
The chess rules collaborator (the `python-chess` library) is external to the
repository; it is modelled by the `Board` structure, whose fields mirror the
collaborator operations the parser uses (`legal_moves`, `parse_san`,
`piece_at`, `san`, `turn`).  Pure module-level helpers of the collaborator
that the parser calls (`chess.Move.from_uci`, `chess.parse_square`,
`chess.square_name`, `chess.Move.uci`) have deterministic, documented
behaviour and are embedded concretely.  A Python exception is modelled as
`Except.error ()` at call sites that the parser does not wrap in
`try/except`, and as `Option.none` at call sites that it does (a caught
exception is observationally a failed sub-parse there).
-/

/-- Python `str` as a sequence of unicode scalar values. -/
abbrev PyStr := List Char

/-- Characters stripped by Python `str.strip()` (the ASCII whitespace subset,
which covers every input this module manipulates). -/
def pySpaceChars : PyStr := [' ', '\t', '\n', '\x0b', '\x0c', '\r']

def isPySpace (c : Char) : Bool := pySpaceChars.contains c

/-- Python `str.strip()`. -/
def pyStrip (s : PyStr) : PyStr :=
  ((s.dropWhile isPySpace).reverse.dropWhile isPySpace).reverse

/-- Apply a character translation table: the image of the first pair whose key
equals `c`, else `c` itself. -/
def tableApply (l : List (Char × Char)) (c : Char) : Char :=
  match l.find? (fun p => p.1 = c) with
  | some p => p.2
  | none => c

/-- Case-mapping table of Python `str.lower`, restricted to the Basic Latin
and Ukrainian/Russian Cyrillic alphabets this module manipulates. -/
def lowerPairs : List (Char × Char) :=
  (List.range 26).map (fun i => (Char.ofNat (65 + i), Char.ofNat (97 + i)))
    ++ (List.range 32).map (fun i => (Char.ofNat (0x410 + i), Char.ofNat (0x430 + i)))
    ++ [('І', 'і'), ('Ї', 'ї'), ('Є', 'є'),
        ('Ґ', 'ґ'), ('Ё', 'ё')]

/-- Case-mapping table of Python `str.upper` on the same alphabets. -/
def upperPairs : List (Char × Char) := lowerPairs.map (fun p => (p.2, p.1))

def pyLowerChar (c : Char) : Char := tableApply lowerPairs c

def pyUpperChar (c : Char) : Char := tableApply upperPairs c

/-- Python `str.lower()`. -/
def pyLower (s : PyStr) : PyStr := s.map pyLowerChar

/-- Python `str.upper()`. -/
def pyUpper (s : PyStr) : PyStr := s.map pyUpperChar

/-- Python `str.capitalize()`: first character title-cased (identical to
upper-casing on these alphabets), the rest lower-cased. -/
def pyCapitalize (s : PyStr) : PyStr :=
  match s with
  | [] => []
  | c :: rest => pyUpperChar c :: rest.map pyLowerChar

/-- Python `needle in hay` for strings: contiguous substring test. -/
def strContains (hay needle : PyStr) : Bool :=
  if needle.isPrefixOf hay then true
  else
    match hay with
    | [] => false
    | _ :: t => strContains t needle

/-- Worker for `pyReplace`; fuel-indexed so that it is structurally
recursive.  The fuel never runs out when it starts at the length of the
scanned string, because each step consumes at least one character. -/
def replaceFuel (old new : PyStr) : Nat → PyStr → PyStr
  | _, [] => []
  | 0, s => s
  | fuel + 1, c :: rest =>
    if old.isPrefixOf (c :: rest) then
      new ++ replaceFuel old new fuel (rest.drop (old.length - 1))
    else
      c :: replaceFuel old new fuel rest

/-- Python `str.replace(old, new)` for a non-empty pattern: replace every
non-overlapping occurrence, scanning left to right.  (The parser never calls
`replace` with an empty pattern.) -/
def pyReplace (s old new : PyStr) : PyStr :=
  if old = [] then s else replaceFuel old new s.length s

/-- Python `str.split(sep)` for a single-character separator. -/
def splitOnChar (c : Char) : PyStr → List PyStr
  | [] => [[]]
  | x :: r =>
    if x = c then [] :: splitOnChar c r
    else
      match splitOnChar c r with
      | h :: t => (x :: h) :: t
      | [] => [[x]]

def isFileChar (c : Char) : Bool := 'a' ≤ c && c ≤ 'h'

def isRankChar (c : Char) : Bool := '1' ≤ c && c ≤ '8'

/-- Worker for `findSquares` (fuel-indexed for structural recursion). -/
def findSquaresFuel : Nat → PyStr → List PyStr
  | 0, _ => []
  | _, [] => []
  | _ + 1, [_] => []
  | fuel + 1, a :: b :: rest =>
    if isFileChar a && isRankChar b then [a, b] :: findSquaresFuel fuel rest
    else findSquaresFuel fuel (b :: rest)

/-- Python `re.findall(r'[a-h][1-8]', s)`: all non-overlapping matches of a
board-square pattern, scanning left to right. -/
def findSquares (s : PyStr) : List PyStr := findSquaresFuel s.length s

/-! ## The rules collaborator (python-chess), as consumed by the parser -/

/-- A chess piece as returned by `board.piece_at`: `pieceType` is the
python-chess encoding (1 = pawn, 2 = knight, 3 = bishop, 4 = rook,
5 = queen, 6 = king) and `color` is `true` for White. -/
structure Piece where
  pieceType : Nat
  color : Bool
deriving DecidableEq, Repr

/-- A `chess.Move`: origin and destination square indices (0–63 in a real
position, `a1 = 0`, `b1 = 1`, …, `h8 = 63`), an optional promotion piece
type, and an optional drop piece type (used only by variant boards). -/
structure Move where
  fromSq : Nat
  toSq : Nat
  promotion : Option Nat := none
  drop : Option Nat := none
deriving DecidableEq, Repr

/-- Python truthiness of a `chess.Move` (`Move.__bool__`): false exactly for
the null move. -/
def moveBool (m : Move) : Bool :=
  decide (m.fromSq ≠ 0) || decide (m.toSq ≠ 0) || m.promotion.isSome || m.drop.isSome

/-- Index of a piece symbol in python-chess `PIECE_SYMBOLS`
(`[None, "p", "n", "b", "r", "q", "k"]`); `none` models the `ValueError`
raised by `list.index` on anything else. -/
def symbolIndex (c : Char) : Option Nat :=
  if c = 'p' then some 1 else if c = 'n' then some 2 else if c = 'b' then some 3
  else if c = 'r' then some 4 else if c = 'q' then some 5 else if c = 'k' then some 6
  else none

/-- python-chess `piece_symbol`: `PIECE_SYMBOLS[piece_type]`, an exception
(modelled as `error`) outside 1–6. -/
def pieceSymbolChar (pt : Nat) : Except Unit Char :=
  if pt = 1 then .ok 'p' else if pt = 2 then .ok 'n' else if pt = 3 then .ok 'b'
  else if pt = 4 then .ok 'r' else if pt = 5 then .ok 'q' else if pt = 6 then .ok 'k'
  else .error ()

/-- `chess.parse_square` / `SQUARE_NAMES.index`: a lower-case file letter
followed by a rank digit, `none` on anything else. -/
def parseSquareName (s : PyStr) : Option Nat :=
  match s with
  | [f, r] =>
    if isFileChar f && isRankChar r then
      some ((r.toNat - '1'.toNat) * 8 + (f.toNat - 'a'.toNat))
    else none
  | _ => none

/-- `chess.square_name` / `SQUARE_NAMES[sq]`: an exception (modelled as
`error`) for an index outside 0–63. -/
def squareNameE (n : Nat) : Except Unit PyStr :=
  if n < 64 then
    .ok [Char.ofNat ('a'.toNat + n % 8), Char.ofNat ('1'.toNat + n / 8)]
  else .error ()

/-- `chess.Move.from_uci`.  Mirrors python-chess: the literal null move
`"0000"`, a drop move `"<P>@<sq>"`, or origin + destination (+ promotion
symbol), rejecting equal origin and destination.  `none` models the raised
`InvalidMoveError`; every call site in the parser wraps this in
`try/except`. -/
def fromUci (s : PyStr) : Option Move :=
  if s = "0000".toList then some { fromSq := 0, toSq := 0 }
  else if s.length = 4 && (s.get? 1 = some '@') then
    match s with
    | c :: _ :: sq =>
      match symbolIndex (pyLowerChar c), parseSquareName sq with
      | some d, some n => some { fromSq := n, toSq := n, drop := some d }
      | _, _ => none
    | _ => none
  else if 4 ≤ s.length && s.length ≤ 5 then
    match parseSquareName (s.take 2), parseSquareName ((s.drop 2).take 2) with
    | some f, some t =>
      match s.drop 4 with
      | [] => if f = t then none else some { fromSq := f, toSq := t }
      | [p] =>
        match symbolIndex p with
        | some pr => if f = t then none else some { fromSq := f, toSq := t, promotion := some pr }
        | none => none
      | _ => none
    | _, _ => none
  else none

/-- `chess.Move.uci`. -/
def uciOf (m : Move) : Except Unit PyStr :=
  match m.drop with
  | some d =>
    match pieceSymbolChar d, squareNameE m.toSq with
    | .ok c, .ok n => .ok (pyUpperChar c :: '@' :: n)
    | _, _ => .error ()
  | none =>
    match m.promotion with
    | some p =>
      match squareNameE m.fromSq, squareNameE m.toSq, pieceSymbolChar p with
      | .ok f, .ok t, .ok c => .ok (f ++ t ++ [c])
      | _, _, _ => .error ()
    | none =>
      if moveBool m then
        match squareNameE m.fromSq, squareNameE m.toSq with
        | .ok f, .ok t => .ok (f ++ t)
        | _, _ => .error ()
      else .ok ("0000".toList)

/-- The board-facing interface of the rules collaborator, as the parser uses
it.  `parseSan` returns `none` where python-chess raises (every such call in
the parser sits inside `try/except`); `pieceAt` and `sanOf` return
`Except.error` where python-chess raises, because the parser calls them
outside any `try/except`. -/
structure Board where
  legalMoves : List Move
  parseSan : PyStr → Option Move
  pieceAt : Nat → Except Unit (Option Piece)
  sanOf : Move → Except Unit PyStr
  turn : Bool

/-! ## The move parser (`src/move_parser.py`) -/

/-- The transliteration table of `MoveParser.__init__`
(`self.cyrillic_to_latin`), in its Python insertion order. -/
def cyrillicToLatinPairs : List (Char × Char) :=
  [('а', 'a'), ('А', 'A'),
   ('б', 'b'), ('Б', 'B'),
   ('с', 'c'), ('С', 'C'),
   ('д', 'd'), ('Д', 'D'),
   ('е', 'e'), ('Е', 'E'),
   ('ф', 'f'), ('Ф', 'F'),
   ('г', 'g'), ('Г', 'G'),
   ('х', 'h'), ('Х', 'H')]

/-- `MoveParser._convert_cyrillic_to_latin`: one `str.replace` per table
entry, applied in table order. -/
def convertCyrillicToLatin (text : PyStr) : PyStr :=
  cyrillicToLatinPairs.foldl (fun acc p => pyReplace acc [p.1] [p.2]) text

/-- The castling-phrase dictionary of `MoveParser._try_castling_ukrainian`,
in its Python insertion order. -/
def castlingNames : List (PyStr × PyStr) :=
  [("коротка рокіровка".toList, "O-O".toList),
   ("рокіровка коротка".toList, "O-O".toList),
   ("мала рокіровка".toList, "O-O".toList),
   ("рокіровка".toList, "O-O".toList),
   ("довга рокіровка".toList, "O-O-O".toList),
   ("рокіровка довга".toList, "O-O-O".toList),
   ("велика рокіровка".toList, "O-O-O".toList)]

/-- The phrase loop of `_try_castling_ukrainian`: on a phrase match, try the
collaborator's algebraic parser on the canonical notation; a raised
`ValueError`/`IllegalMoveError` (`none`) is swallowed and the loop
continues. -/
def castlingLoop (b : Board) (tl : PyStr) : List (PyStr × PyStr) → Option Move
  | [] => none
  | (name, sanText) :: rest =>
    if strContains tl name then
      match b.parseSan sanText with
      | some m => some m
      | none => castlingLoop b tl rest
    else castlingLoop b tl rest

/-- `MoveParser._try_castling_ukrainian`. -/
def tryCastlingUkrainian (t : PyStr) (b : Board) : Option Move :=
  castlingLoop b (pyLower t) castlingNames

/-- The variant loop of `_try_standard_notation`: each variant is fed to
`board.parse_san`; an exception (`none`) moves on to the next variant, and a
falsy parsed move (the null move) also fails the `if move:` test and moves
on. -/
def variantLoop (b : Board) : List PyStr → Option Move
  | [] => none
  | v :: rest =>
    match b.parseSan v with
    | some m => if moveBool m then some m else variantLoop b rest
    | none => variantLoop b rest

/-- `MoveParser._try_standard_notation`: the token as typed, then with its
first character capitalized, then fully upper-cased. -/
def tryStandardSan (t : PyStr) (b : Board) : Option Move :=
  variantLoop b [t, pyCapitalize t, pyUpper t]

/-- `MoveParser._try_uci_notation`. -/
def tryUciFormat (t : PyStr) (b : Board) : Option Move :=
  match fromUci t with
  | some m => if m ∈ b.legalMoves then some m else none
  | none => none

/-- `MoveParser._try_dash_notation`. -/
def tryDashFormat (t : PyStr) (b : Board) : Option Move :=
  if '-' ∈ t then
    match splitOnChar '-' t with
    | [p1, p2] =>
      match fromUci (pyStrip p1 ++ pyStrip p2) with
      | some m => if m ∈ b.legalMoves then some m else none
      | _ => none
    | _ => none
  else none

/-- Modelled from the spec: `config.PIECE_NAMES_UK`, the fixed table of
Ukrainian piece-name phrases mapped to piece letters ("a fixed set of
piece-name phrases (pawn, knight, bishop, rook, queen, king, in the user's
natural language)").  `config.py` is not present under `src/`; only this
consumer is. -/
def PIECE_NAMES_UK : List (PyStr × PyStr) :=
  [("пішак".toList, "P".toList),
   ("кінь".toList, "N".toList),
   ("слон".toList, "B".toList),
   ("тура".toList, "R".toList),
   ("ферзь".toList, "Q".toList),
   ("король".toList, "K".toList)]

/-- The piece-name scan of `_try_human_language`: the first table phrase
contained in the token is recorded, and removed from the token (followed by
a strip). -/
def pieceScan (t : PyStr) : List (PyStr × PyStr) → Option (PyStr × PyStr)
  | [] => none
  | (name, sym) :: rest =>
    if strContains t name then some (sym, pyStrip (pyReplace t name []))
    else pieceScan t rest

/-- The filler-word removal of `_try_human_language`:
`.replace('на', ' ').replace('з', ' ').replace('в', ' ').strip()`. -/
def stripStopWords (t : PyStr) : PyStr :=
  pyStrip (pyReplace (pyReplace (pyReplace t ("на".toList) [' ']) ("з".toList) [' ']) ("в".toList) [' '])

/-- The `piece_map` of `_find_move_by_piece_and_target`. -/
def pieceMapLookup (s : PyStr) : Option Nat :=
  if s = "P".toList then some 1 else if s = "N".toList then some 2
  else if s = "B".toList then some 3 else if s = "R".toList then some 4
  else if s = "Q".toList then some 5 else if s = "K".toList then some 6
  else none

/-- The qualifying-move loop of `_find_move_by_piece_and_target`: a legal
move is kept when its destination equals the target and `board.piece_at` of
its origin returns a piece of the requested type and of the side to move's
color.  `piece_at` is consulted (outside any `try/except`) only for moves
whose destination matches, exactly as in the source. -/
def collectQualifying (b : Board) (pt tgt : Nat) : List Move → Except Unit (List Move)
  | [] => .ok []
  | m :: rest =>
    if m.toSq = tgt then
      match b.pieceAt m.fromSq with
      | .error e => .error e
      | .ok op =>
        match collectQualifying b pt tgt rest with
        | .error e => .error e
        | .ok tail =>
          match op with
          | some p =>
            if p.pieceType = pt && (p.color = b.turn) then .ok (m :: tail) else .ok tail
          | none => .ok tail
    else collectQualifying b pt tgt rest

/-- Outcome of a resolution, following the spec's three-way contract.  The
Python function returns the move for a unique match and `None` otherwise;
in the multiple-match case it prints each qualifying move together with its
origin square before returning `None`.  `ambiguous` records that printed
report (each qualifying move paired with its origin square, in legal-move
order). -/
inductive ParseOutcome where
  | unrecognized
  | resolved (m : Move)
  | ambiguous (cands : List (Move × Nat))
deriving DecidableEq, Repr

/-- The candidate loop of the ambiguous branch (lines printing each
qualifying move): for each candidate in order, `board.san` and
`chess.square_name` are evaluated (outside any `try/except`), and the move
is reported paired with its origin square. -/
def reportCandidates (b : Board) : List Move → Except Unit (List (Move × Nat))
  | [] => .ok []
  | m :: rest =>
    match b.sanOf m, squareNameE m.fromSq with
    | .ok _, .ok _ =>
      match reportCandidates b rest with
      | .error e => .error e
      | .ok tail => .ok ((m, m.fromSq) :: tail)
    | _, _ => .error ()

/-- `MoveParser._find_move_by_piece_and_target`, with the ambiguous report
made explicit.  The ambiguous branch evaluates `board.san` and
`chess.square_name` for every candidate (and again for the first candidate,
for the retry hint), outside any `try/except`, exactly as the print
statements do. -/
def findMoveOutcome (b : Board) (pieceSymbol toName : PyStr) : Except Unit ParseOutcome :=
  match pieceMapLookup (pyUpper pieceSymbol) with
  | none => .ok .unrecognized
  | some pt =>
    match parseSquareName toName with
    | none => .ok .unrecognized
    | some tgt =>
      match collectQualifying b pt tgt b.legalMoves with
      | .error e => .error e
      | .ok possible =>
        match possible with
        | [] => .ok .unrecognized
        | [m] => .ok (.resolved m)
        | m0 :: _ :: _ =>
          match reportCandidates b possible with
          | .error e => .error e
          | .ok pairs =>
            match b.sanOf m0, squareNameE m0.fromSq with
            | .ok _, .ok _ => .ok (.ambiguous pairs)
            | _, _ => .error ()

/-- The Python return value of `_find_move_by_piece_and_target`: the move on
a unique match, `None` otherwise. -/
def findMoveByPieceAndTarget (b : Board) (pieceSymbol toName : PyStr) : Except Unit (Option Move) :=
  (findMoveOutcome b pieceSymbol toName).map (fun o =>
    match o with
    | .resolved m => some m
    | _ => none)

/-- `MoveParser._try_human_language`. -/
def tryHumanLanguage (t : PyStr) (b : Board) : Except Unit (Option Move) :=
  let scanned := pieceScan t PIECE_NAMES_UK
  let pieceSymbol := match scanned with | some (sym, _) => sym | none => "P".toList
  let t1 := match scanned with | some (_, rest) => rest | none => t
  let squares := findSquares (stripStopWords t1)
  match squares with
  | [toName] => findMoveByPieceAndTarget b pieceSymbol toName
  | [fromName, toName] =>
    match fromUci (fromName ++ toName) with
    | some m => if m ∈ b.legalMoves then .ok (some m) else .ok none
    | none => .ok none
  | _ => .ok none

/-- Python truthiness of an `Optional[chess.Move]`, as tested by each
`if move:` in `parse_move`. -/
def truthy (r : Option Move) : Bool :=
  match r with
  | some m => moveBool m
  | none => false

/-- The strategy chain of `MoveParser.parse_move`, after the two
normalization assignments (strip, transliterate) have been applied to
`move_text`: Ukrainian castling phrases, standard algebraic notation, then
(after lower-casing) UCI, human language, and dashed coordinates. -/
def parseAfterPreprocess (t0 : PyStr) (b : Board) : Except Unit (Option Move) :=
  let r0 := tryCastlingUkrainian t0 b
  if truthy r0 then .ok r0 else
  let r1 := tryStandardSan t0 b
  if truthy r1 then .ok r1 else
  let t1 := pyLower t0
  let r2 := tryUciFormat t1 b
  if truthy r2 then .ok r2 else
  match tryHumanLanguage t1 b with
  | .error e => .error e
  | .ok r3 =>
    if truthy r3 then .ok r3 else
    let r4 := tryDashFormat t1 b
    if truthy r4 then .ok r4 else
    .ok none

/-- `MoveParser.parse_move`: strip and transliterate the raw text, then run
the strategy chain. -/
def parse_move (moveText : PyStr) (b : Board) : Except Unit (Option Move) :=
  parseAfterPreprocess (convertCyrillicToLatin (pyStrip moveText)) b

/-! ## Character-table lemmas -/

/-- The transliteration, as the character function it amounts to: the
replacement chain applied to a single character. -/
def cyrLat (c : Char) : Char :=
  cyrillicToLatinPairs.foldl (fun x p => if x = p.1 then p.2 else x) c

theorem foldl_subst_id (l : List (Char × Char)) (c : Char)
    (h : ∀ p ∈ l, c ≠ p.1) :
    l.foldl (fun x p => if x = p.1 then p.2 else x) c = c := by
  induction l with
  | nil => rfl
  | cons p ps ih =>
    simp only [List.foldl_cons]
    rw [if_neg (h p (by simp))]
    exact ih (fun q hq => h q (by simp [hq]))

theorem replaceFuel_single (a b' : Char) :
    ∀ (fuel : Nat) (s : PyStr), s.length ≤ fuel →
      replaceFuel [a] [b'] fuel s = s.map (fun c => if c = a then b' else c) := by
  intro fuel
  induction fuel with
  | zero =>
    intro s hs
    cases s with
    | nil => rfl
    | cons c rest => simp at hs
  | succ f ih =>
    intro s hs
    cases s with
    | nil => rfl
    | cons c rest =>
      have hlen : rest.length ≤ f := by simpa using Nat.le_of_succ_le_succ hs
      simp only [replaceFuel, List.map_cons]
      by_cases hac : a = c
      · subst hac
        rw [if_pos (by simp)]
        simp only [List.length_singleton, Nat.sub_self, List.drop_zero]
        rw [ih rest hlen]
        simp
      · rw [if_neg (by simp [hac]), if_neg (by exact fun h => hac h.symm)]
        rw [ih rest hlen]

theorem pyReplace_single (a b' : Char) (s : PyStr) :
    pyReplace s [a] [b'] = s.map (fun c => if c = a then b' else c) := by
  unfold pyReplace
  rw [if_neg (by simp)]
  exact replaceFuel_single a b' s.length s le_rfl

theorem foldl_replace_map (l : List (Char × Char)) :
    ∀ s : PyStr,
      l.foldl (fun acc p => pyReplace acc [p.1] [p.2]) s
        = s.map (fun c => l.foldl (fun x p => if x = p.1 then p.2 else x) c) := by
  induction l with
  | nil => intro s; simp
  | cons p ps ih =>
    intro s
    simp only [List.foldl_cons]
    rw [pyReplace_single, ih, List.map_map]
    rfl

/-- The transliteration is the character map `cyrLat`. -/
theorem convert_eq_map (s : PyStr) : convertCyrillicToLatin s = s.map cyrLat :=
  foldl_replace_map cyrillicToLatinPairs s

theorem cyrLat_self_of_not_key (c : Char)
    (hc : c ∉ cyrillicToLatinPairs.map Prod.fst) : cyrLat c = c := by
  refine foldl_subst_id _ _ fun p hp he => hc ?_
  exact he ▸ List.mem_map_of_mem Prod.fst hp

theorem cyrLat_key_or_self (c : Char) :
    c ∈ cyrillicToLatinPairs.map Prod.fst ∨ cyrLat c = c := by
  by_cases hc : c ∈ cyrillicToLatinPairs.map Prod.fst
  · exact Or.inl hc
  · exact Or.inr (cyrLat_self_of_not_key c hc)

theorem key_facts {p : Char → Prop} [DecidablePred p]
    (h : (cyrillicToLatinPairs.map Prod.fst).all (fun c => decide (p c)) = true) :
    ∀ c ∈ cyrillicToLatinPairs.map Prod.fst, p c := by
  intro c hc
  exact of_decide_eq_true (List.all_eq_true.mp h c hc)

/-- Transliterating twice is transliterating once. -/
theorem cyrLat_idem (c : Char) : cyrLat (cyrLat c) = cyrLat c := by
  rcases cyrLat_key_or_self c with hk | hs
  · exact key_facts (p := fun c => cyrLat (cyrLat c) = cyrLat c) (by decide) c hk
  · rw [hs, hs]

/-- Transliteration neither consumes nor produces whitespace. -/
theorem cyrLat_space (c : Char) : isPySpace (cyrLat c) = isPySpace c := by
  rcases cyrLat_key_or_self c with hk | hs
  · exact key_facts (p := fun c => isPySpace (cyrLat c) = isPySpace c) (by decide) c hk
  · rw [hs]

/-- No character transliterates to Cyrillic `а` or `А`: the table's values
are Latin, and any character it does not touch is itself not a table key. -/
theorem cyrLat_ne_cyr_a (c : Char) : cyrLat c ≠ 'а' ∧ cyrLat c ≠ 'А' := by
  by_cases hk : c ∈ cyrillicToLatinPairs.map Prod.fst
  · exact key_facts (p := fun c => cyrLat c ≠ 'а' ∧ cyrLat c ≠ 'А') (by decide) c hk
  · rw [cyrLat_self_of_not_key c hk]
    constructor
    · intro he; exact hk (by rw [he]; decide)
    · intro he; exact hk (by rw [he]; decide)

/-- A transliterated ASCII character is left unchanged. -/
theorem cyrLat_ascii (c : Char) (h : c.toNat < 128) : cyrLat c = c := by
  rcases cyrLat_key_or_self c with hk | hs
  · exact absurd h (by
      have := key_facts (p := fun c => 128 ≤ c.toNat) (by decide) c hk
      omega)
  · exact hs

/-! ## Strip, contains and pipeline lemmas -/

theorem dropWhile_eq_self_of {p : Char → Bool} {s : PyStr}
    (h : ∀ c ∈ s, p c = false) : s.dropWhile p = s := by
  cases s with
  | nil => rfl
  | cons c rest => simp [List.dropWhile_cons, h c (by simp)]

/-- Stripping a string with no leading or trailing whitespace (in particular
one with no whitespace at all) is the identity. -/
theorem pyStrip_eq_self {s : PyStr} (h : ∀ c ∈ s, isPySpace c = false) :
    pyStrip s = s := by
  unfold pyStrip
  rw [dropWhile_eq_self_of h, dropWhile_eq_self_of (by simpa using h), List.reverse_reverse]

theorem pyStrip_map {f : Char → Char} (hf : ∀ c, isPySpace (f c) = isPySpace c)
    (s : PyStr) : pyStrip (s.map f) = (pyStrip s).map f := by
  unfold pyStrip
  have he : (isPySpace ∘ f) = isPySpace := funext hf
  rw [List.dropWhile_map, ← List.map_reverse, List.dropWhile_map, ← List.map_reverse, he]

theorem convert_idem (s : PyStr) :
    convertCyrillicToLatin (convertCyrillicToLatin s) = convertCyrillicToLatin s := by
  rw [convert_eq_map, convert_eq_map]
  induction s with
  | nil => simp only [List.map_nil]
  | cons c rest ih => simp only [List.map_cons, cyrLat_idem, ih]

theorem convert_strip_comm (s : PyStr) :
    pyStrip (convertCyrillicToLatin s) = convertCyrillicToLatin (pyStrip s) := by
  rw [convert_eq_map, convert_eq_map]
  exact pyStrip_map cyrLat_space s

/-- A transliterated ASCII string is left unchanged. -/
theorem convert_ascii {s : PyStr} (h : ∀ c ∈ s, c.toNat < 128) :
    convertCyrillicToLatin s = s := by
  rw [convert_eq_map]
  induction s with
  | nil => rfl
  | cons c rest ih =>
    simp only [List.map_cons]
    rw [cyrLat_ascii c (h c (by simp)), ih (fun c hc => h c (by simp [hc]))]

/-- A substring's characters all occur in the scanned string. -/
theorem strContains_subset {hay needle : PyStr}
    (h : strContains hay needle = true) : ∀ c ∈ needle, c ∈ hay := by
  induction hay with
  | nil =>
    rw [strContains] at h
    split at h
    · next hp =>
      intro c hc
      rw [List.isPrefixOf_iff_prefix] at hp
      exact hp.subset hc
    · exact absurd h (by simp)
  | cons x t ih =>
    rw [strContains] at h
    split at h
    · next hp =>
      intro c hc
      rw [List.isPrefixOf_iff_prefix] at hp
      exact hp.subset hc
    · intro c hc
      exact List.mem_cons_of_mem x (ih h c hc)

theorem castlingLoop_none {b : Board} {tl : PyStr} :
    ∀ {l : List (PyStr × PyStr)}, (∀ p ∈ l, strContains tl p.1 = false) →
      castlingLoop b tl l = none := by
  intro l
  induction l with
  | nil => intro _; rfl
  | cons p ps ih =>
    intro h
    rw [castlingLoop, if_neg (by simp [h p (by simp)])]
    exact ih (fun q hq => h q (by simp [hq]))

/-- The Ukrainian castling strategy can never match once the token has gone
through the transliteration preprocessing: every phrase in the dictionary
contains the Cyrillic letter `а`, and the transliteration has replaced every
occurrence of `а`/`А` with Latin `a`/`A` (no character maps back to them,
and lower-casing only produces `а` from `А`). -/
theorem castling_strategy_dead (s : PyStr) (b : Board) :
    tryCastlingUkrainian (convertCyrillicToLatin s) b = none := by
  unfold tryCastlingUkrainian
  apply castlingLoop_none
  intro p hp
  by_contra hcont
  rw [Bool.not_eq_false] at hcont
  have ha : ('а' : Char) ∈ p.1 := by
    have : ∀ q ∈ castlingNames, ('а' : Char) ∈ q.1 := by decide
    exact this p hp
  have hmem : ('а' : Char) ∈ pyLower (convertCyrillicToLatin s) :=
    strContains_subset hcont 'а' ha
  rw [convert_eq_map] at hmem
  unfold pyLower at hmem
  obtain ⟨x, hx, hlow0⟩ := List.mem_map.mp hmem
  obtain ⟨c, _, hc⟩ := List.mem_map.mp hx
  have hlow : pyLowerChar (cyrLat c) = 'а' := by rw [hc]; exact hlow0
  have : cyrLat c = 'а' ∨ cyrLat c = 'А' := by
    unfold pyLowerChar tableApply at hlow
    split at hlow
    · next q hq =>
      have hqm := List.mem_of_find?_eq_some hq
      have hq1 : q.1 = cyrLat c := by
        have := List.find?_some hq
        exact of_decide_eq_true this
      have : ∀ r ∈ lowerPairs, r.2 = 'а' → r.1 = 'А' := by decide
      right
      rw [← hq1]
      exact this q hqm hlow
    · exact Or.inl hlow
  rcases this with h1 | h1
  · exact (cyrLat_ne_cyr_a c).1 h1
  · exact (cyrLat_ne_cyr_a c).2 h1

/-! ## Strategy-loop lemmas -/

theorem variantLoop_none {b : Board} :
    ∀ {vs : List PyStr}, (∀ v ∈ vs, b.parseSan v = none) → variantLoop b vs = none := by
  intro vs
  induction vs with
  | nil => intro _; rfl
  | cons v rest ih =>
    intro h
    rw [variantLoop, h v (by simp)]
    exact ih (fun w hw => h w (by simp [hw]))

theorem variantLoop_sound {b : Board} :
    ∀ {vs : List PyStr} {m : Move}, variantLoop b vs = some m →
      ∃ v ∈ vs, b.parseSan v = some m := by
  intro vs
  induction vs with
  | nil => intro m h; exact absurd h (by simp [variantLoop])
  | cons v rest ih =>
    intro m h
    cases hv : b.parseSan v with
    | some m' =>
      simp only [variantLoop, hv] at h
      by_cases hb : moveBool m' = true
      · rw [if_pos hb] at h
        exact ⟨v, by simp, by rw [hv, Option.some_inj.mp h]⟩
      · rw [if_neg hb] at h
        obtain ⟨w, hw, hws⟩ := ih h
        exact ⟨w, by simp [hw], hws⟩
    | none =>
      simp only [variantLoop, hv] at h
      obtain ⟨w, hw, hws⟩ := ih h
      exact ⟨w, by simp [hw], hws⟩

theorem castlingLoop_sound {b : Board} {tl : PyStr} :
    ∀ {l : List (PyStr × PyStr)} {m : Move}, castlingLoop b tl l = some m →
      ∃ p ∈ l, b.parseSan p.2 = some m := by
  intro l
  induction l with
  | nil => intro m h; exact absurd h (by simp [castlingLoop])
  | cons p ps ih =>
    intro m h
    rw [castlingLoop] at h
    split at h
    · cases hp : b.parseSan p.2 with
      | some m' =>
        rw [hp] at h
        exact ⟨p, by simp, by rw [hp, Option.some_inj.mp h]⟩
      | none =>
        rw [hp] at h
        obtain ⟨q, hq, hqs⟩ := ih h
        exact ⟨q, by simp [hq], hqs⟩
    · obtain ⟨q, hq, hqs⟩ := ih h
      exact ⟨q, by simp [hq], hqs⟩

/-! ## Qualifying-move lemmas -/

/-- The qualification test of the legal-move scan, as a pure predicate: the
destination matches and `piece_at` of the origin succeeds with a piece of
the requested type and the side to move's color. -/
def qualPure (b : Board) (pt tgt : Nat) (m : Move) : Bool :=
  decide (m.toSq = tgt) &&
    (match b.pieceAt m.fromSq with
     | .ok (some p) => decide (p.pieceType = pt) && decide (p.color = b.turn)
     | _ => false)

theorem collect_eq_filter {b : Board} {pt tgt : Nat} :
    ∀ {l : List Move}, (∀ m ∈ l, m.toSq = tgt → (b.pieceAt m.fromSq).isOk) →
      collectQualifying b pt tgt l = .ok (l.filter (qualPure b pt tgt)) := by
  intro l
  induction l with
  | nil => intro _; rfl
  | cons m rest ih =>
    intro h
    have hrest : ∀ m' ∈ rest, m'.toSq = tgt → (b.pieceAt m'.fromSq).isOk :=
      fun m' hm' => h m' (by simp [hm'])
    by_cases ht : m.toSq = tgt
    · have hok := h m (by simp) ht
      cases hpc : b.pieceAt m.fromSq with
      | error e => rw [hpc] at hok; exact absurd hok (by simp [Except.isOk, Except.toBool])
      | ok op =>
        rw [collectQualifying, if_pos ht, hpc, ih hrest]
        cases op with
        | none =>
          rw [List.filter_cons, if_neg (by simp [qualPure, hpc])]
        | some p =>
          by_cases hq : (decide (p.pieceType = pt) && decide (p.color = b.turn)) = true
          · rw [List.filter_cons, if_pos (by simp only [qualPure, hpc]; simp [ht, hq])]
            dsimp only
            rw [if_pos hq]
          · rw [List.filter_cons, if_neg (by simp only [qualPure, hpc]; simp [hq])]
            dsimp only
            rw [if_neg hq]
    · rw [collectQualifying, if_neg ht, List.filter_cons,
        if_neg (by simp [qualPure, ht]), ih hrest]

theorem collect_subset {b : Board} {pt tgt : Nat} :
    ∀ {l l' : List Move}, collectQualifying b pt tgt l = .ok l' → ∀ m ∈ l', m ∈ l := by
  intro l
  induction l with
  | nil =>
    intro l' h
    rw [collectQualifying] at h
    cases h
    simp
  | cons m rest ih =>
    intro l' h
    rw [collectQualifying] at h
    split at h
    · cases hpc : b.pieceAt m.fromSq with
      | error e => rw [hpc] at h; exact absurd h (by simp)
      | ok op =>
        rw [hpc] at h
        cases hrec : collectQualifying b pt tgt rest with
        | error e => rw [hrec] at h; exact absurd h (by simp)
        | ok tail =>
          rw [hrec] at h
          have htail : ∀ x ∈ tail, x ∈ rest := ih hrec
          rcases op with _ | p
          · rw [Except.ok.injEq] at h
            subst h
            intro x hx
            simp [htail x hx]
          · dsimp only at h
            split at h
            · cases h
              intro x hx
              rcases List.mem_cons.mp hx with hx | hx
              · simp [hx]
              · simp [htail x hx]
            · cases h
              intro x hx
              simp [htail x hx]
    · intro x hx
      simp [ih h x hx]

/-! ## Square-extraction lemmas -/

/-- The square scan, written without fuel (for reasoning; `findSquares` is
proved equal to it). -/
def fsList : PyStr → List PyStr
  | [] => []
  | [_] => []
  | a :: b :: rest =>
    if isFileChar a && isRankChar b then [a, b] :: fsList rest
    else fsList (b :: rest)
termination_by s => s.length

theorem findSquaresFuel_eq :
    ∀ (fuel : Nat) (s : PyStr), s.length ≤ fuel → findSquaresFuel fuel s = fsList s := by
  intro fuel
  induction fuel with
  | zero =>
    intro s hs
    cases s with
    | nil => simp [findSquaresFuel, fsList]
    | cons a r => simp at hs
  | succ f ih =>
    intro s hs
    match s with
    | [] => simp [findSquaresFuel, fsList]
    | [a] => simp [findSquaresFuel, fsList]
    | a :: b :: rest =>
      simp only [findSquaresFuel, fsList]
      have hr : rest.length ≤ f := by simp at hs; omega
      have hbr : (b :: rest).length ≤ f := by simp at hs ⊢; omega
      by_cases h : (isFileChar a && isRankChar b) = true
      · rw [if_pos h, if_pos h, ih rest hr]
      · rw [if_neg h, if_neg h, ih (b :: rest) hbr]

theorem findSquares_eq_fsList (s : PyStr) : findSquares s = fsList s :=
  findSquaresFuel_eq s.length s le_rfl

theorem two_mul_fsList_le (s : PyStr) : 2 * (fsList s).length ≤ s.length := by
  induction s using fsList.induct with
  | case1 => simp [fsList]
  | case2 a => simp [fsList]
  | case3 a b rest h ih =>
    simp only [fsList]
    rw [if_pos h]
    simp only [List.length_cons]
    omega
  | case4 a b rest h ih =>
    simp only [fsList]
    rw [if_neg h]
    simp only [List.length_cons] at ih ⊢
    omega

theorem fsList_cons_nonfile {a : Char} (ha : isFileChar a = false) (s : PyStr) :
    fsList (a :: s) = fsList s := by
  cases s with
  | nil => simp [fsList]
  | cons b rest =>
    simp only [fsList]
    rw [if_neg (by simp [ha])]

/-- A scan over characters that are neither file letters nor rank digits
finds nothing. -/
theorem fsList_nonsq_nil {w : PyStr}
    (hw : ∀ c ∈ w, isFileChar c = false ∧ isRankChar c = false) : fsList w = [] := by
  induction w with
  | nil => simp [fsList]
  | cons a rest ih =>
    rw [fsList_cons_nonfile (hw a (by simp)).1]
    exact ih (fun c hc => hw c (by simp [hc]))

/-- Appending non-square characters on the right does not change the scan. -/
theorem fsList_append_nonsq {w : PyStr}
    (hw : ∀ c ∈ w, isFileChar c = false ∧ isRankChar c = false) :
    ∀ s : PyStr, fsList (s ++ w) = fsList s := by
  intro s
  induction s using fsList.induct with
  | case1 => simpa [fsList] using fsList_nonsq_nil hw
  | case2 a =>
    rw [List.singleton_append]
    have h1 : fsList [a] = ([] : List PyStr) := by simp [fsList]
    rw [h1]
    cases w with
    | nil => simp [fsList]
    | cons c w' =>
      have hc2 := (hw c (by simp)).2
      have hrest : ∀ x ∈ c :: w', isFileChar x = false ∧ isRankChar x = false := hw
      by_cases hfa : isFileChar a = true
      · simp only [fsList]
        rw [if_neg (by simp [hc2])]
        exact fsList_nonsq_nil (fun x hx => hrest x hx)
      · rw [fsList_cons_nonfile (by simpa using hfa)]
        exact fsList_nonsq_nil hrest
  | case3 a b rest h ih =>
    rw [List.cons_append, List.cons_append]
    simp only [fsList]
    rw [if_pos h, if_pos h, ih]
  | case4 a b rest h ih =>
    rw [List.cons_append, List.cons_append]
    simp only [fsList]
    rw [if_neg h, if_neg h, ← List.cons_append, ih]

/-- Scanning across a single non-square separator finds at most the matches
of the two sides. -/
theorem fsList_append_sep {c : Char} (hf : isFileChar c = false)
    (hr : isRankChar c = false) :
    ∀ x y : PyStr, (fsList (x ++ c :: y)).length ≤ (fsList x).length + (fsList y).length := by
  intro x
  induction x using fsList.induct with
  | case1 =>
    intro y
    rw [List.nil_append, fsList_cons_nonfile hf]
    simp [fsList]
  | case2 a =>
    intro y
    rw [List.singleton_append]
    have h1 : fsList [a] = ([] : List PyStr) := by simp [fsList]
    rw [h1]
    by_cases hfa : isFileChar a = true
    · simp only [fsList]
      rw [if_neg (by simp [hr])]
      rw [fsList_cons_nonfile hf]
      simp
    · rw [fsList_cons_nonfile (by simpa using hfa), fsList_cons_nonfile hf]
      simp
  | case3 a b rest h ih =>
    intro y
    rw [List.cons_append, List.cons_append]
    simp only [fsList]
    rw [if_pos h, if_pos h]
    simp only [List.length_cons]
    have := ih y
    omega
  | case4 a b rest h ih =>
    intro y
    rw [List.cons_append, List.cons_append]
    simp only [fsList]
    rw [if_neg h, if_neg h, ← List.cons_append]
    exact ih y

/-! ## Replace, split and strip lemmas -/

theorem isPrefixOf_length_le {l1 l2 : PyStr} (h : l1.isPrefixOf l2 = true) :
    l1.length ≤ l2.length := by
  rw [List.isPrefixOf_iff_prefix] at h
  exact h.length_le

theorem replaceFuel_not_head {a : Char} {tl : PyStr} :
    ∀ (fuel : Nat) (s new : PyStr), a ∉ s →
      replaceFuel (a :: tl) new fuel s = s := by
  intro fuel
  induction fuel with
  | zero =>
    intro s new ha
    cases s with
    | nil => rfl
    | cons c rest => rfl
  | succ f ih =>
    intro s new ha
    cases s with
    | nil => rfl
    | cons c rest =>
      rw [replaceFuel, if_neg (by
        intro hp
        rw [List.isPrefixOf_iff_prefix] at hp
        exact ha (hp.subset (by simp)))]
      rw [ih rest new (fun hc => ha (by simp [hc]))]

/-- Replacing a pattern whose first character does not occur in the string
leaves the string unchanged. -/
theorem pyReplace_not_head {a : Char} {tl : PyStr} {s : PyStr} (new : PyStr)
    (ha : a ∉ s) : pyReplace s (a :: tl) new = s := by
  unfold pyReplace
  rw [if_neg (by simp)]
  exact replaceFuel_not_head s.length s new ha

theorem replaceFuel_length_le {old new : PyStr} (hn : new.length ≤ old.length) :
    ∀ (fuel : Nat) (s : PyStr), (replaceFuel old new fuel s).length ≤ s.length := by
  intro fuel
  induction fuel with
  | zero =>
    intro s
    cases s with
    | nil => simp [replaceFuel]
    | cons c rest => simp [replaceFuel]
  | succ f ih =>
    intro s
    cases s with
    | nil => simp [replaceFuel]
    | cons c rest =>
      rw [replaceFuel]
      by_cases hp : old.isPrefixOf (c :: rest) = true
      · rw [if_pos hp]
        have hlen := isPrefixOf_length_le hp
        have h1 := ih (rest.drop (old.length - 1))
        have h2 : (rest.drop (old.length - 1)).length = rest.length - (old.length - 1) :=
          List.length_drop _ _
        simp only [List.length_append, List.length_cons] at *
        omega
      · rw [if_neg hp]
        have := ih rest
        simp only [List.length_cons]
        omega

theorem pyReplace_length_le {s old new : PyStr} (hn : new.length ≤ old.length) :
    (pyReplace s old new).length ≤ s.length := by
  unfold pyReplace
  by_cases ho : old = []
  · rw [if_pos ho]
  · rw [if_neg ho]
    exact replaceFuel_length_le hn s.length s

theorem splitOnChar_ne_nil (c : Char) : ∀ s : PyStr, splitOnChar c s ≠ [] := by
  intro s
  induction s with
  | nil => simp [splitOnChar]
  | cons x r ih =>
    rw [splitOnChar]
    by_cases hx : x = c
    · rw [if_pos hx]; simp
    · rw [if_neg hx]
      cases hs : splitOnChar c r with
      | nil => exact absurd hs ih
      | cons h t => simp

theorem splitOnChar_single {c : Char} :
    ∀ {s p : PyStr}, splitOnChar c s = [p] → s = p ∧ c ∉ p := by
  intro s
  induction s with
  | nil =>
    intro p h
    rw [splitOnChar] at h
    injection h with h1 _
    subst h1
    exact ⟨rfl, by simp⟩
  | cons x r ih =>
    intro p h
    rw [splitOnChar] at h
    by_cases hx : x = c
    · rw [if_pos hx] at h
      injection h with h1 h2
      exact absurd h2 (splitOnChar_ne_nil c r)
    · rw [if_neg hx] at h
      split at h
      · rename_i hd t heq
        injection h with h1 h2
        subst h2
        obtain ⟨h3, h4⟩ := ih heq
        subst h3
        refine ⟨h1, ?_⟩
        rw [← h1]
        intro hmem
        rcases List.mem_cons.mp hmem with hm | hm
        · exact hx hm.symm
        · exact h4 hm
      · rename_i heq
        exact absurd heq (splitOnChar_ne_nil c r)

theorem splitOnChar_pair {c : Char} :
    ∀ {s p1 p2 : PyStr}, splitOnChar c s = [p1, p2] →
      s = p1 ++ c :: p2 ∧ c ∉ p1 ∧ c ∉ p2 := by
  intro s
  induction s with
  | nil =>
    intro p1 p2 h
    rw [splitOnChar] at h
    injection h with _ h2
    exact absurd h2.symm (by simp)
  | cons x r ih =>
    intro p1 p2 h
    rw [splitOnChar] at h
    by_cases hx : x = c
    · rw [if_pos hx] at h
      injection h with h1 h2
      obtain ⟨h3, h4⟩ := splitOnChar_single h2
      subst hx
      refine ⟨?_, ?_, h4⟩
      · rw [← h1, h3]
        rfl
      · rw [← h1]
        simp
    · rw [if_neg hx] at h
      split at h
      · rename_i hd t heq
        injection h with h1 h2
        rw [h2] at heq
        obtain ⟨h3, h4, h5⟩ := ih heq
        refine ⟨?_, ?_, h5⟩
        · rw [← h1, h3]
          rfl
        · rw [← h1]
          intro hmem
          rcases List.mem_cons.mp hmem with hm | hm
          · exact hx hm.symm
          · exact h4 hm
      · rename_i heq
        exact absurd heq (splitOnChar_ne_nil c r)

theorem mem_takeWhile_space {s : PyStr} :
    ∀ c ∈ s.takeWhile isPySpace, isPySpace c = true := by
  intro c hc
  induction s with
  | nil => simp [List.takeWhile] at hc
  | cons x r ih =>
    rw [List.takeWhile_cons] at hc
    by_cases hx : isPySpace x = true
    · rw [if_pos hx] at hc
      rcases List.mem_cons.mp hc with h | h
      · rw [h]; exact hx
      · exact ih h
    · rw [if_neg hx] at hc
      simp at hc

/-- Any string is surrounding whitespace around its stripped core. -/
theorem pyStrip_decomp (s : PyStr) :
    ∃ w1 w2 : PyStr, s = w1 ++ pyStrip s ++ w2 ∧
      (∀ c ∈ w1, isPySpace c = true) ∧ (∀ c ∈ w2, isPySpace c = true) := by
  refine ⟨s.takeWhile isPySpace,
    ((s.dropWhile isPySpace).reverse.takeWhile isPySpace).reverse, ?_, ?_, ?_⟩
  · have h2 : s.dropWhile isPySpace
        = pyStrip s ++ ((s.dropWhile isPySpace).reverse.takeWhile isPySpace).reverse := by
      unfold pyStrip
      conv_lhs => rw [← List.reverse_reverse (s.dropWhile isPySpace)]
      rw [← List.reverse_append, List.takeWhile_append_dropWhile]
    conv_lhs => rw [← List.takeWhile_append_dropWhile (p := isPySpace) (l := s), h2]
    rw [List.append_assoc]
  · exact mem_takeWhile_space
  · intro c hc
    rw [List.mem_reverse] at hc
    exact mem_takeWhile_space c hc

theorem pyStrip_length_le (s : PyStr) : (pyStrip s).length ≤ s.length := by
  obtain ⟨w1, w2, hdec, _, _⟩ := pyStrip_decomp s
  conv_rhs => rw [hdec]
  simp only [List.length_append]
  omega

/-! ## Character-class lemmas -/

theorem isFileChar_toNat {c : Char} (h : isFileChar c = true) :
    97 ≤ c.toNat ∧ c.toNat ≤ 104 := by
  unfold isFileChar at h
  rw [Bool.and_eq_true, decide_eq_true_eq, decide_eq_true_eq] at h
  obtain ⟨h1, h2⟩ := h
  rw [Char.le_def] at h1 h2
  exact ⟨h1, h2⟩

theorem isRankChar_toNat {c : Char} (h : isRankChar c = true) :
    49 ≤ c.toNat ∧ c.toNat ≤ 56 := by
  unfold isRankChar at h
  rw [Bool.and_eq_true, decide_eq_true_eq, decide_eq_true_eq] at h
  obtain ⟨h1, h2⟩ := h
  rw [Char.le_def] at h1 h2
  exact ⟨h1, h2⟩

theorem isPySpace_mem {c : Char} (h : isPySpace c = true) : c ∈ pySpaceChars := by
  unfold isPySpace at h
  simpa using h

theorem isPySpace_nonsq {c : Char} (h : isPySpace c = true) :
    isFileChar c = false ∧ isRankChar c = false := by
  have hm := isPySpace_mem h
  have : ∀ x ∈ pySpaceChars, isFileChar x = false ∧ isRankChar x = false := by decide
  exact this c hm

theorem isPySpace_false_of_ascii_printable {c : Char}
    (h1 : 33 ≤ c.toNat) : isPySpace c = false := by
  by_contra hc
  rw [Bool.not_eq_false] at hc
  have hm := isPySpace_mem hc
  have : ∀ x ∈ pySpaceChars, x.toNat ≤ 32 := by decide
  have := this c hm
  omega

theorem tableApply_result {l : List (Char × Char)} {c v : Char}
    (h : tableApply l c = v) : (c, v) ∈ l ∨ v = c := by
  unfold tableApply at h
  cases hf : l.find? (fun p => p.1 = c) with
  | some p =>
    rw [hf] at h
    left
    have hm := List.mem_of_find?_eq_some hf
    have hp := List.find?_some hf
    have h1 : p.1 = c := of_decide_eq_true hp
    have : p = (c, v) := by
      cases p
      simp only [Prod.mk.injEq]
      exact ⟨h1, h⟩
    exact this ▸ hm
  | none =>
    rw [hf] at h
    exact Or.inr h.symm

theorem tableApply_fix {l : List (Char × Char)} {c : Char}
    (h : ∀ p ∈ l, p.1 ≠ c) : tableApply l c = c := by
  unfold tableApply
  rw [List.find?_eq_none.mpr (fun p hp => by simp [h p hp])]

/-- A character whose lower-case image lies in an ASCII character list is
itself ASCII. -/
theorem pyLowerChar_mem_ascii {c : Char} {l : List Char}
    (hm : pyLowerChar c ∈ l) (hl : ∀ x ∈ l, x.toNat < 128) : c.toNat < 128 := by
  rcases tableApply_result (l := lowerPairs) (c := c) rfl with h | h
  · have : ∀ p ∈ lowerPairs, p.2.toNat < 128 → p.1.toNat < 128 := by decide
    exact this (c, pyLowerChar c) h (hl _ hm)
  · rw [← h]
    exact hl _ hm

theorem symbolIndex_chars {x : Char} {d : Nat} (h : symbolIndex x = some d) :
    x ∈ (['p', 'n', 'b', 'r', 'q', 'k'] : List Char) := by
  unfold symbolIndex at h
  split_ifs at h with h1 h2 h3 h4 h5 h6 <;> simp_all

theorem parseSquareName_shape {sq : PyStr} {n : Nat}
    (h : parseSquareName sq = some n) :
    ∃ f r, sq = [f, r] ∧ isFileChar f = true ∧ isRankChar r = true := by
  unfold parseSquareName at h
  split at h
  · rename_i f r
    split at h
    · rename_i hfr
      rw [Bool.and_eq_true] at hfr
      exact ⟨f, r, rfl, hfr.1, hfr.2⟩
    · exact absurd h (by simp)
  · exact absurd h (by simp)

/-- Characters of a square name are ASCII and printable. -/
theorem squareChar_ascii {c : Char}
    (h : isFileChar c = true ∨ isRankChar c = true) :
    c.toNat < 128 ∧ isPySpace c = false := by
  rcases h with h | h
  · obtain ⟨h1, h2⟩ := isFileChar_toNat h
    exact ⟨by omega, isPySpace_false_of_ascii_printable (by omega)⟩
  · obtain ⟨h1, h2⟩ := isRankChar_toNat h
    exact ⟨by omega, isPySpace_false_of_ascii_printable (by omega)⟩

/-- A string accepted by `chess.Move.from_uci` has at most five characters,
all ASCII. -/
theorem fromUci_ascii_len {s : PyStr} {m : Move} (h : fromUci s = some m) :
    s.length ≤ 5 ∧ ∀ c ∈ s, c.toNat < 128 := by
  unfold fromUci at h
  split_ifs at h with h0 h1 h2
  · subst h0
    exact ⟨by decide, by decide⟩
  · rw [Bool.and_eq_true] at h1
    obtain ⟨hlen, hat⟩ := h1
    rw [decide_eq_true_eq] at hlen hat
    rcases s with _ | ⟨a, s⟩
    · simp at hlen
    rcases s with _ | ⟨b, s⟩
    · simp at hlen
    have hb : b = '@' := by simpa using hat
    subst hb
    refine ⟨by simp at hlen ⊢; omega, ?_⟩
    dsimp only at h
    split at h
    · rename_i d' n' hsym hpsn
      obtain ⟨f, r, hsq, hf, hr⟩ := parseSquareName_shape hpsn
      subst hsq
      intro x hx
      simp only [List.mem_cons, List.not_mem_nil, or_false] at hx
      rcases hx with rfl | rfl | rfl | rfl
      · exact pyLowerChar_mem_ascii (symbolIndex_chars hsym) (by decide)
      · decide
      · obtain ⟨hb1, hb2⟩ := isFileChar_toNat hf
        omega
      · obtain ⟨hb1, hb2⟩ := isRankChar_toNat hr
        omega
    · exact absurd h (by simp)
  · rw [Bool.and_eq_true] at h2
    obtain ⟨hl4, hl5⟩ := h2
    rw [decide_eq_true_eq] at hl4 hl5
    rcases s with _ | ⟨a, s⟩
    · simp at hl4
    rcases s with _ | ⟨b, s⟩
    · simp at hl4
    rcases s with _ | ⟨c, s⟩
    · simp at hl4
    rcases s with _ | ⟨d, s⟩
    · simp at hl4
    rcases s with _ | ⟨e, s⟩
    · -- four characters
      dsimp only [List.take, List.drop] at h
      split at h
      · rename_i f t hpa hpb
        obtain ⟨f1, r1, he1, hf1, hr1⟩ := parseSquareName_shape hpa
        obtain ⟨f2, r2, he2, hf2, hr2⟩ := parseSquareName_shape hpb
        injection he1 with e1 e1'
        injection e1' with e1' _
        subst e1 e1'
        injection he2 with e2 e2'
        injection e2' with e2' _
        subst e2 e2'
        refine ⟨by simp, ?_⟩
        intro x hx
        simp only [List.mem_cons, List.not_mem_nil, or_false] at hx
        rcases hx with rfl | rfl | rfl | rfl
        · obtain ⟨hb1, hb2⟩ := isFileChar_toNat hf1; omega
        · obtain ⟨hb1, hb2⟩ := isRankChar_toNat hr1; omega
        · obtain ⟨hb1, hb2⟩ := isFileChar_toNat hf2; omega
        · obtain ⟨hb1, hb2⟩ := isRankChar_toNat hr2; omega
      · exact absurd h (by simp)
    rcases s with _ | ⟨g, s⟩
    · -- five characters
      dsimp only [List.take, List.drop] at h
      split at h
      · rename_i f t hpa hpb
        obtain ⟨f1, r1, he1, hf1, hr1⟩ := parseSquareName_shape hpa
        obtain ⟨f2, r2, he2, hf2, hr2⟩ := parseSquareName_shape hpb
        injection he1 with e1 e1'
        injection e1' with e1' _
        subst e1 e1'
        injection he2 with e2 e2'
        injection e2' with e2' _
        subst e2 e2'
        split at h
        · rename_i pr hpr
          refine ⟨by simp, ?_⟩
          intro x hx
          simp only [List.mem_cons, List.not_mem_nil, or_false] at hx
          have hpe : e.toNat < 128 := by
            have hm := symbolIndex_chars hpr
            have : ∀ y ∈ (['p', 'n', 'b', 'r', 'q', 'k'] : List Char), y.toNat < 128 := by
              decide
            exact this e hm
          rcases hx with rfl | rfl | rfl | rfl | rfl
          · obtain ⟨hb1, hb2⟩ := isFileChar_toNat hf1; omega
          · obtain ⟨hb1, hb2⟩ := isRankChar_toNat hr1; omega
          · obtain ⟨hb1, hb2⟩ := isFileChar_toNat hf2; omega
          · obtain ⟨hb1, hb2⟩ := isRankChar_toNat hr2; omega
          · exact hpe
        · exact absurd h (by simp)
      · exact absurd h (by simp)
    · simp at hl5

theorem fromUci_length {s : PyStr} {m : Move} (h : fromUci s = some m) :
    s.length ≤ 5 := (fromUci_ascii_len h).1

/-- `from_uci` rejects any string of six or more characters. -/
theorem fromUci_long_none {s : PyStr} (h : 6 ≤ s.length) : fromUci s = none := by
  cases hu : fromUci s with
  | none => rfl
  | some m =>
    have := fromUci_length hu
    omega

/-! ## ASCII-token lemmas -/

theorem strContains_no_nonascii {hay needle : PyStr}
    (hh : ∀ c ∈ hay, c.toNat < 128) (hx : ∃ x ∈ needle, 128 ≤ x.toNat) :
    strContains hay needle = false := by
  by_contra h
  rw [Bool.not_eq_false] at h
  obtain ⟨x, hmem, hxa⟩ := hx
  have := hh x (strContains_subset h x hmem)
  omega

theorem pyLowerChar_ascii_of {c : Char} (h : c.toNat < 128) :
    (pyLowerChar c).toNat < 128 := by
  rcases tableApply_result (l := lowerPairs) (c := c) rfl with hm | he
  · have : ∀ p ∈ lowerPairs, p.1.toNat < 128 → p.2.toNat < 128 := by decide
    exact this _ hm h
  · unfold pyLowerChar
    rw [he]; exact h

theorem pyLower_ascii {t : PyStr} (h : ∀ c ∈ t, c.toNat < 128) :
    ∀ c ∈ pyLower t, c.toNat < 128 := by
  intro c hc
  obtain ⟨x, hx, hxc⟩ := List.mem_map.mp hc
  rw [← hxc]
  exact pyLowerChar_ascii_of (h x hx)

/-- On an ASCII token the castling-phrase strategy never matches: every
phrase contains non-ASCII (Cyrillic) letters. -/
theorem castling_ascii_none {t : PyStr} (h : ∀ c ∈ t, c.toNat < 128)
    (b : Board) : tryCastlingUkrainian t b = none := by
  unfold tryCastlingUkrainian
  apply castlingLoop_none
  intro p hp
  apply strContains_no_nonascii (pyLower_ascii h)
  have : ∀ q ∈ castlingNames, ∃ x ∈ q.1, 128 ≤ x.toNat := by decide
  exact this p hp

theorem pieceScan_none {t : PyStr} :
    ∀ {l : List (PyStr × PyStr)}, (∀ p ∈ l, strContains t p.1 = false) →
      pieceScan t l = none := by
  intro l
  induction l with
  | nil => intro _; rfl
  | cons p ps ih =>
    intro h
    rw [pieceScan, if_neg (by simp [h p (by simp)])]
    exact ih (fun q hq => h q (by simp [hq]))

/-- On an ASCII token no Ukrainian piece-name phrase is found. -/
theorem pieceScan_ascii_none {t : PyStr} (h : ∀ c ∈ t, c.toNat < 128) :
    pieceScan t PIECE_NAMES_UK = none := by
  apply pieceScan_none
  intro p hp
  apply strContains_no_nonascii h
  have : ∀ q ∈ PIECE_NAMES_UK, ∃ x ∈ q.1, 128 ≤ x.toNat := by decide
  exact this p hp

theorem ascii_not_mem {t : PyStr} (h : ∀ c ∈ t, c.toNat < 128) {x : Char}
    (hx : 128 ≤ x.toNat) : x ∉ t := fun hm => by have := h x hm; omega

/-- On an ASCII token the filler-word removal is just a strip: the filler
words are Cyrillic. -/
theorem stripStopWords_ascii {t : PyStr} (h : ∀ c ∈ t, c.toNat < 128) :
    stripStopWords t = pyStrip t := by
  unfold stripStopWords
  rw [show ("на".toList : PyStr) = 'н' :: "а".toList from rfl,
    show ("з".toList : PyStr) = 'з' :: [] from rfl,
    show ("в".toList : PyStr) = 'в' :: [] from rfl]
  rw [pyReplace_not_head _ (ascii_not_mem h (by decide)),
    pyReplace_not_head _ (ascii_not_mem h (by decide)),
    pyReplace_not_head _ (ascii_not_mem h (by decide))]

theorem lowerPairs_keys_range : ∀ p ∈ lowerPairs,
    (65 ≤ p.1.toNat ∧ p.1.toNat ≤ 90) ∨ 1024 ≤ p.1.toNat := by decide

/-- Lower-casing fixes any character outside the upper-case ranges of the
table (in particular lower-case ASCII letters and digits). -/
theorem pyLowerChar_fix {c : Char}
    (h : c.toNat < 65 ∨ (90 < c.toNat ∧ c.toNat < 128)) : pyLowerChar c = c := by
  apply tableApply_fix
  intro p hp he
  have := lowerPairs_keys_range p hp
  have he' : p.1.toNat = c.toNat := congrArg Char.toNat he
  omega

theorem pyLower_fix {t : PyStr}
    (h : ∀ c ∈ t, c.toNat < 65 ∨ (90 < c.toNat ∧ c.toNat < 128)) :
    pyLower t = t := by
  unfold pyLower
  induction t with
  | nil => rfl
  | cons c rest ih =>
    simp only [List.map_cons]
    rw [pyLowerChar_fix (h c (by simp)), ih (fun x hx => h x (by simp [hx]))]

/-! ## Square-name lemmas -/

/-- The square name `SQUARE_NAMES[n]` as a pure value (for `n < 64`,
`squareNameE` returns exactly this). -/
def sqName (n : Nat) : PyStr :=
  [Char.ofNat ('a'.toNat + n % 8), Char.ofNat ('1'.toNat + n / 8)]

theorem squareNameE_ok {n : Nat} (h : n < 64) : squareNameE n = .ok (sqName n) := by
  unfold squareNameE sqName
  rw [if_pos h]

theorem sqName_roundtrip : ∀ n : Fin 64, parseSquareName (sqName n.val) = some n.val := by
  decide

theorem sqName_chars : ∀ n : Fin 64,
    (match sqName n.val with
     | [f, r] => isFileChar f && isRankChar r
     | _ => false) = true := by
  decide

theorem sqName_shape (n : Fin 64) :
    ∃ f r, sqName n.val = [f, r] ∧ isFileChar f = true ∧ isRankChar r = true := by
  have h := sqName_chars n
  unfold sqName at h ⊢
  dsimp only at h
  rw [Bool.and_eq_true] at h
  exact ⟨_, _, rfl, h.1, h.2⟩

theorem sqName_ascii (n : Fin 64) : ∀ c ∈ sqName n.val, c.toNat < 128 := by
  obtain ⟨f, r, he, hf, hr⟩ := sqName_shape n
  rw [he]
  intro c hc
  simp only [List.mem_cons, List.not_mem_nil, or_false] at hc
  rcases hc with rfl | rfl
  · obtain ⟨h1, h2⟩ := isFileChar_toNat hf
    omega
  · obtain ⟨h1, h2⟩ := isRankChar_toNat hr
    omega

theorem sqName_lower_fix (n : Fin 64) : pyLower (sqName n.val) = sqName n.val := by
  apply pyLower_fix
  obtain ⟨f, r, he, hf, hr⟩ := sqName_shape n
  rw [he]
  intro c hc
  simp only [List.mem_cons, List.not_mem_nil, or_false] at hc
  rcases hc with rfl | rfl
  · obtain ⟨h1, h2⟩ := isFileChar_toNat hf
    omega
  · obtain ⟨h1, h2⟩ := isRankChar_toNat hr
    omega

theorem sqName_nonspace (n : Fin 64) : ∀ c ∈ sqName n.val, isPySpace c = false := by
  intro c hc
  obtain ⟨f, r, he, hf, hr⟩ := sqName_shape n
  rw [he] at hc
  simp only [List.mem_cons, List.not_mem_nil, or_false] at hc
  rcases hc with rfl | rfl
  · obtain ⟨h1, _⟩ := isFileChar_toNat hf
    exact isPySpace_false_of_ascii_printable (by omega)
  · obtain ⟨h1, _⟩ := isRankChar_toNat hr
    exact isPySpace_false_of_ascii_printable (by omega)

/-! ## Dashed-notation counting bound -/

theorem fsList_prepend_nonsq {w : PyStr}
    (hw : ∀ c ∈ w, isFileChar c = false ∧ isRankChar c = false) (s : PyStr) :
    fsList (w ++ s) = fsList s := by
  induction w with
  | nil => rfl
  | cons a w' ih =>
    rw [List.cons_append, fsList_cons_nonfile (hw a (by simp)).1]
    exact ih (fun c hc => hw c (by simp [hc]))

theorem fsList_strip_count (t : PyStr) :
    (fsList (pyStrip t)).length = (fsList t).length := by
  obtain ⟨w1, w2, hdec, hw1, hw2⟩ := pyStrip_decomp t
  conv_rhs => rw [hdec]
  rw [List.append_assoc]
  rw [fsList_prepend_nonsq (fun c hc => isPySpace_nonsq (hw1 c hc))]
  rw [fsList_append_nonsq (fun c hc => isPySpace_nonsq (hw2 c hc))]

/-- If the dashed-coordinate strategy accepts a token, the token cannot
contain three or more board-square substrings: the two stripped halves
concatenate to an accepted long-algebraic string of at most five
characters. -/
theorem dash_squares_bound {t : PyStr} {b : Board} {m : Move}
    (hd : tryDashFormat t b = some m) :
    (fsList (stripStopWords t)).length ≤ 2 := by
  unfold tryDashFormat at hd
  split_ifs at hd with hdash
  · split at hd
    · rename_i p1 p2 hsplit
      split at hd
      · rename_i m' hu
        obtain ⟨ht, _, _⟩ := splitOnChar_pair hsplit
        obtain ⟨hlen, hascii⟩ := fromUci_ascii_len hu
        obtain ⟨w1, w2, hp1, hw1, hw2⟩ := pyStrip_decomp p1
        obtain ⟨w3, w4, hp2, hw3, hw4⟩ := pyStrip_decomp p2
        have hs1 : ∀ c ∈ pyStrip p1, c.toNat < 128 := fun c hc =>
          hascii c (by simp [hc])
        have hs2 : ∀ c ∈ pyStrip p2, c.toNat < 128 := fun c hc =>
          hascii c (by simp [hc])
        have htascii : ∀ c ∈ t, c.toNat < 128 := by
          intro c hc
          rw [ht, hp1, hp2] at hc
          simp only [List.mem_append, List.mem_cons] at hc
          rcases hc with ((hc | hc) | hc) | hc | ((hc | hc) | hc)
          · have := hw1 c hc
            have := isPySpace_mem this
            have : ∀ x ∈ pySpaceChars, x.toNat < 128 := by decide
            exact this c (isPySpace_mem (hw1 c hc))
          · exact hs1 c hc
          · have : ∀ x ∈ pySpaceChars, x.toNat < 128 := by decide
            exact this c (isPySpace_mem (hw2 c hc))
          · rw [hc]; decide
          · have : ∀ x ∈ pySpaceChars, x.toNat < 128 := by decide
            exact this c (isPySpace_mem (hw3 c hc))
          · exact hs2 c hc
          · have : ∀ x ∈ pySpaceChars, x.toNat < 128 := by decide
            exact this c (isPySpace_mem (hw4 c hc))
        rw [stripStopWords_ascii htascii, fsList_strip_count]
        have hc1 : (fsList p1).length = (fsList (pyStrip p1)).length := by
          conv_lhs => rw [hp1]
          rw [show w1 ++ pyStrip p1 ++ w2 = w1 ++ (pyStrip p1 ++ w2) from
            List.append_assoc _ _ _]
          rw [fsList_prepend_nonsq (fun c hc => isPySpace_nonsq (hw1 c hc))]
          rw [fsList_append_nonsq (fun c hc => isPySpace_nonsq (hw2 c hc))]
        have hc2 : (fsList p2).length = (fsList (pyStrip p2)).length := by
          conv_lhs => rw [hp2]
          rw [show w3 ++ pyStrip p2 ++ w4 = w3 ++ (pyStrip p2 ++ w4) from
            List.append_assoc _ _ _]
          rw [fsList_prepend_nonsq (fun c hc => isPySpace_nonsq (hw3 c hc))]
          rw [fsList_append_nonsq (fun c hc => isPySpace_nonsq (hw4 c hc))]
        have hsep := fsList_append_sep (c := '-') (by decide) (by decide) p1 p2
        have hb1 := two_mul_fsList_le (pyStrip p1)
        have hb2 := two_mul_fsList_le (pyStrip p2)
        have hlen12 : (pyStrip p1).length + (pyStrip p2).length ≤ 5 := by
          rw [← List.length_append]
          exact hlen
        rw [ht]
        omega
      · exact absurd hd (by simp)
    · exact absurd hd (by simp)

/-! ## Concrete boards used as test positions

Each board is a faithful model of a real chess position's collaborator
interface: its legal-move list, the algebraic strings python-chess accepts
in that position, and the piece occupancy of the relevant squares.
Square indices follow python-chess (`a1 = 0`, …, `h8 = 63`). -/

/-- Association-list San parser for a concrete position: python-chess
`parse_san` accepts exactly the listed strings there and raises on
everything else. -/
def sanLookup (l : List (PyStr × Move)) (s : PyStr) : Option Move :=
  match l.find? (fun p => p.1 = s) with
  | some p => some p.2
  | none => none

/-- Association-list San formatter for a concrete position (`board.san`),
an error on moves that are not legal there. -/
def sanTable (l : List (Move × PyStr)) (m : Move) : Except Unit PyStr :=
  match l.find? (fun p => p.1 = m) with
  | some p => .ok p.2
  | none => .error ()

/-- White: Ke1, Rh1; Black: Ke8; White to move, kingside castling rights.
Short castling (`O-O`, king e1→g1) is legal. -/
def castleBoard : Board :=
  { legalMoves :=
      [{ fromSq := 4, toSq := 6 }, { fromSq := 4, toSq := 3 }, { fromSq := 4, toSq := 11 },
       { fromSq := 4, toSq := 12 }, { fromSq := 4, toSq := 13 }, { fromSq := 4, toSq := 5 },
       { fromSq := 7, toSq := 5 }, { fromSq := 7, toSq := 6 }, { fromSq := 7, toSq := 15 },
       { fromSq := 7, toSq := 23 }, { fromSq := 7, toSq := 31 }, { fromSq := 7, toSq := 39 },
       { fromSq := 7, toSq := 47 }, { fromSq := 7, toSq := 55 }, { fromSq := 7, toSq := 63 }],
    parseSan := sanLookup
      [("O-O".toList, { fromSq := 4, toSq := 6 }),
       ("Kd1".toList, { fromSq := 4, toSq := 3 }),
       ("Kd2".toList, { fromSq := 4, toSq := 11 }),
       ("Ke2".toList, { fromSq := 4, toSq := 12 }),
       ("Kf2".toList, { fromSq := 4, toSq := 13 }),
       ("Kf1".toList, { fromSq := 4, toSq := 5 }),
       ("Rf1".toList, { fromSq := 7, toSq := 5 }),
       ("Rg1".toList, { fromSq := 7, toSq := 6 }),
       ("Rh2".toList, { fromSq := 7, toSq := 15 }),
       ("Rh3".toList, { fromSq := 7, toSq := 23 }),
       ("Rh4".toList, { fromSq := 7, toSq := 31 }),
       ("Rh5".toList, { fromSq := 7, toSq := 39 }),
       ("Rh6".toList, { fromSq := 7, toSq := 47 }),
       ("Rh7".toList, { fromSq := 7, toSq := 55 }),
       ("Rh8".toList, { fromSq := 7, toSq := 63 })],
    pieceAt := fun n =>
      .ok (if n = 4 then some { pieceType := 6, color := true }
        else if n = 7 then some { pieceType := 4, color := true }
        else if n = 60 then some { pieceType := 6, color := false }
        else none),
    sanOf := sanTable
      [({ fromSq := 4, toSq := 6 }, "O-O".toList),
       ({ fromSq := 4, toSq := 3 }, "Kd1".toList),
       ({ fromSq := 4, toSq := 11 }, "Kd2".toList),
       ({ fromSq := 4, toSq := 12 }, "Ke2".toList),
       ({ fromSq := 4, toSq := 13 }, "Kf2".toList),
       ({ fromSq := 4, toSq := 5 }, "Kf1".toList),
       ({ fromSq := 7, toSq := 5 }, "Rf1".toList),
       ({ fromSq := 7, toSq := 6 }, "Rg1".toList),
       ({ fromSq := 7, toSq := 15 }, "Rh2".toList),
       ({ fromSq := 7, toSq := 23 }, "Rh3".toList),
       ({ fromSq := 7, toSq := 31 }, "Rh4".toList),
       ({ fromSq := 7, toSq := 39 }, "Rh5".toList),
       ({ fromSq := 7, toSq := 47 }, "Rh6".toList),
       ({ fromSq := 7, toSq := 55 }, "Rh7".toList),
       ({ fromSq := 7, toSq := 63 }, "Rh8".toList)],
    turn := true }

/-! ## C1 — castling phrases -/

/-- C1: the claim fails on the code, and the code contradicts its own
intent: resolving a token consisting of a known castling phrase is supposed
to delegate the canonical notation to the rules collaborator and return the
castling move when legal.  In a position where short castling is legal
(`castleBoard`: White Ke1/Rh1, Black Ke8), the phrase dictionary itself
would produce the legal `O-O` move (third conjunct, the strategy applied to
the raw phrase), but `parse_move` first transliterates Cyrillic `а` to
Latin `a`, after which no phrase of the dictionary — each contains `а` —
can ever match, so every castling phrase resolves to Unrecognized (the
final three conjuncts evaluate the code on the short, unqualified and long
phrases). -/
theorem C1_castling_phrase_never_resolves :
    ({ fromSq := 4, toSq := 6 } : Move) ∈ castleBoard.legalMoves ∧
    castleBoard.parseSan ("O-O".toList) = some { fromSq := 4, toSq := 6 } ∧
    tryCastlingUkrainian ("коротка рокіровка".toList) castleBoard
      = some { fromSq := 4, toSq := 6 } ∧
    parse_move ("коротка рокіровка".toList) castleBoard = .ok none ∧
    parse_move ("рокіровка".toList) castleBoard = .ok none ∧
    parse_move ("довга рокіровка".toList) castleBoard = .ok none :=
  ⟨by decide, rfl, rfl, rfl, rfl, rfl⟩

/-! ## C5 — transliteration -/

/-- C5: resolving any token is equivalent to resolving its transliteration
(the substitution is applied once, globally, before any strategy runs, and
is idempotent); in particular the Cyrillic look-alike of "e4" — a distinct
string — transliterates to the literal "e4", so the two resolve
identically in every position. -/
theorem C5_transliteration_equivalence :
    (∀ (t : PyStr) (b : Board), parse_move t b = parse_move (convertCyrillicToLatin t) b) ∧
    convertCyrillicToLatin ("е4".toList) = "e4".toList ∧
    ("е4".toList : PyStr) ≠ "e4".toList := by
  refine ⟨?_, by decide, by decide⟩
  intro t b
  unfold parse_move
  rw [convert_strip_comm, convert_idem]

/-! ## Soundness of each strategy -/

theorem tryUciFormat_sound {t : PyStr} {b : Board} {m : Move}
    (h : tryUciFormat t b = some m) : m ∈ b.legalMoves := by
  unfold tryUciFormat at h
  split at h
  · rename_i m' hm'
    split at h
    · rename_i hmem
      cases h
      exact hmem
    · exact absurd h (by simp)
  · exact absurd h (by simp)

theorem tryDashFormat_sound {t : PyStr} {b : Board} {m : Move}
    (h : tryDashFormat t b = some m) : m ∈ b.legalMoves := by
  unfold tryDashFormat at h
  split_ifs at h
  · split at h
    · split at h
      · rename_i m' hm'
        split at h
        · rename_i hmem
          cases h
          exact hmem
        · exact absurd h (by simp)
      · exact absurd h (by simp)
    · exact absurd h (by simp)

theorem findMoveOutcome_resolved_mem {b : Board} {ps tn : PyStr} {m0 : Move}
    (h : findMoveOutcome b ps tn = .ok (.resolved m0)) : m0 ∈ b.legalMoves := by
  unfold findMoveOutcome at h
  cases hpm : pieceMapLookup (pyUpper ps) with
  | none => rw [hpm] at h; exact absurd h (by simp)
  | some pt =>
    rw [hpm] at h
    cases hpsn : parseSquareName tn with
    | none => rw [hpsn] at h; exact absurd h (by simp)
    | some tgt =>
      rw [hpsn] at h
      dsimp only at h
      cases hcol : collectQualifying b pt tgt b.legalMoves with
      | error e => rw [hcol] at h; exact absurd h (by simp)
      | ok possible =>
        rw [hcol] at h
        have hsub := collect_subset hcol
        cases possible with
        | nil => dsimp only at h; exact absurd h (by simp)
        | cons m1 rest =>
          cases rest with
          | nil =>
            dsimp only at h
            rw [Except.ok.injEq, ParseOutcome.resolved.injEq] at h
            subst h
            exact hsub _ (by simp)
          | cons m2 rest2 =>
            dsimp only at h
            cases hrep : reportCandidates b (m1 :: m2 :: rest2) with
            | error e => rw [hrep] at h; exact absurd h (by simp)
            | ok pairs =>
              rw [hrep] at h
              dsimp only at h
              cases hs1 : b.sanOf m1 with
              | error e => rw [hs1] at h; exact absurd h (by simp)
              | ok s1 =>
                rw [hs1] at h
                cases hn1 : squareNameE m1.fromSq with
                | error e => rw [hn1] at h; exact absurd h (by simp)
                | ok n1 =>
                  rw [hn1] at h
                  dsimp only at h
                  exact absurd h (by simp)

theorem findMove_sound {b : Board} {ps tn : PyStr} {m : Move}
    (h : findMoveByPieceAndTarget b ps tn = .ok (some m)) : m ∈ b.legalMoves := by
  unfold findMoveByPieceAndTarget at h
  cases ho : findMoveOutcome b ps tn with
  | error e => rw [ho] at h; exact absurd h (by simp [Except.map])
  | ok o =>
    rw [ho] at h
    simp only [Except.map] at h
    rw [Except.ok.injEq] at h
    cases o with
    | unrecognized => exact absurd h (by simp)
    | ambiguous cands => exact absurd h (by simp)
    | resolved m0 =>
      dsimp only at h
      rw [Option.some_inj] at h
      subst h
      exact findMoveOutcome_resolved_mem ho

theorem tryHuman_sound {t : PyStr} {b : Board} {m : Move}
    (h : tryHumanLanguage t b = .ok (some m)) : m ∈ b.legalMoves := by
  unfold tryHumanLanguage at h
  dsimp only at h
  split at h
  · exact findMove_sound h
  · split at h
    · rename_i m' hm'
      split at h
      · rename_i hmem
        rw [Except.ok.injEq, Option.some_inj] at h
        subst h
        exact hmem
      · rw [Except.ok.injEq] at h
        exact absurd h (by simp)
    · rw [Except.ok.injEq] at h
      exact absurd h (by simp)
  · rw [Except.ok.injEq] at h
    exact absurd h (by simp)

/-! ## C10 — only legal moves are returned -/

/-- C10: whenever `parse_move` resolves a token to a move, that move
belongs to the board's legal-move set — each strategy either takes its
result from the collaborator's legality-checking parser (whose soundness is
the stated collaborator contract) or checks membership in `legal_moves`
itself. -/
theorem C10_resolved_move_is_legal (t : PyStr) (b : Board)
    (hsound : ∀ s m, b.parseSan s = some m → m ∈ b.legalMoves) :
    ∀ m, parse_move t b = .ok (some m) → m ∈ b.legalMoves := by
  intro m hp
  unfold parse_move parseAfterPreprocess at hp
  dsimp only at hp
  split at hp
  · rw [Except.ok.injEq] at hp
    have hcl : castlingLoop b (pyLower (convertCyrillicToLatin (pyStrip t)))
        castlingNames = some m := by rw [← hp]; rfl
    obtain ⟨p, _, hps⟩ := castlingLoop_sound hcl
    exact hsound _ _ hps
  · split at hp
    · rw [Except.ok.injEq] at hp
      obtain ⟨v, _, hvs⟩ := variantLoop_sound (by rw [← hp]; rfl)
      exact hsound _ _ hvs
    · split at hp
      · rw [Except.ok.injEq] at hp
        exact tryUciFormat_sound hp
      · cases hh : tryHumanLanguage (pyLower (convertCyrillicToLatin (pyStrip t))) b with
        | error e => rw [hh] at hp; exact absurd hp (by simp)
        | ok r3 =>
          rw [hh] at hp
          dsimp only at hp
          split at hp
          · rw [Except.ok.injEq] at hp
            subst hp
            exact tryHuman_sound hh
          · split at hp
            · rw [Except.ok.injEq] at hp
              exact tryDashFormat_sound hp
            · rw [Except.ok.injEq] at hp
              exact absurd hp (by simp)

/-! ## C2 — disambiguation by piece type and destination -/

theorem isOk_exists {α : Type} {e : Except Unit α} (h : e.isOk = true) :
    ∃ v, e = .ok v := by
  cases e with
  | error e => simp [Except.isOk, Except.toBool] at h
  | ok v => exact ⟨v, rfl⟩

theorem reportCandidates_ok {b : Board} :
    ∀ {l : List Move}, (∀ m ∈ l, (b.sanOf m).isOk = true ∧ m.fromSq < 64) →
      reportCandidates b l = .ok (l.map (fun m => (m, m.fromSq))) := by
  intro l
  induction l with
  | nil => intro _; rfl
  | cons m rest ih =>
    intro h
    obtain ⟨hs, hn⟩ := h m (by simp)
    obtain ⟨v, hv⟩ := isOk_exists hs
    rw [reportCandidates, hv, squareNameE_ok hn]
    dsimp only
    rw [ih (fun x hx => h x (by simp [hx]))]
    dsimp only
    rw [List.map_cons]

/-- C2: in the piece-type-plus-destination search, a legal move qualifies
exactly when its destination equals the target square and the piece on its
origin square has the requested type and the side to move's color; zero
qualifying moves yield Unrecognized, exactly one yields that move, and two
or more yield Ambiguous carrying every qualifying move paired with its
origin square, in legal-move-enumeration order.  The collaborator
hypotheses state that the requested symbol and square parse, and that
`piece_at` / `san` / `square_name` succeed on legal moves (they do on any
real position). -/
theorem C2_piece_target_disambiguation (b : Board) (ps tn : PyStr) (pt tgt : Nat)
    (hpm : pieceMapLookup (pyUpper ps) = some pt)
    (hpsn : parseSquareName tn = some tgt)
    (hok : ∀ m ∈ b.legalMoves, (b.pieceAt m.fromSq).isOk = true)
    (hsan : ∀ m ∈ b.legalMoves, (b.sanOf m).isOk = true)
    (hsq : ∀ m ∈ b.legalMoves, m.fromSq < 64) :
    (∀ m, m ∈ b.legalMoves.filter (qualPure b pt tgt) ↔
      m ∈ b.legalMoves ∧ m.toSq = tgt ∧
        ∃ p, b.pieceAt m.fromSq = .ok (some p) ∧ p.pieceType = pt ∧ p.color = b.turn) ∧
    (b.legalMoves.filter (qualPure b pt tgt) = [] →
      findMoveOutcome b ps tn = .ok .unrecognized) ∧
    (∀ m, b.legalMoves.filter (qualPure b pt tgt) = [m] →
      findMoveOutcome b ps tn = .ok (.resolved m)) ∧
    (2 ≤ (b.legalMoves.filter (qualPure b pt tgt)).length →
      findMoveOutcome b ps tn =
        .ok (.ambiguous ((b.legalMoves.filter (qualPure b pt tgt)).map
          (fun m => (m, m.fromSq))))) := by
  have hcol : collectQualifying b pt tgt b.legalMoves
      = .ok (b.legalMoves.filter (qualPure b pt tgt)) :=
    collect_eq_filter (fun m hm _ => hok m hm)
  refine ⟨?_, ?_, ?_, ?_⟩
  · intro m
    rw [List.mem_filter]
    constructor
    · rintro ⟨hmem, hq⟩
      refine ⟨hmem, ?_, ?_⟩
      · unfold qualPure at hq
        rw [Bool.and_eq_true, decide_eq_true_eq] at hq
        exact hq.1
      · unfold qualPure at hq
        rw [Bool.and_eq_true] at hq
        obtain ⟨-, hq⟩ := hq
        cases hpc : b.pieceAt m.fromSq with
        | error e => rw [hpc] at hq; simp at hq
        | ok op =>
          rw [hpc] at hq
          cases op with
          | none => simp at hq
          | some p =>
            rw [Bool.and_eq_true, decide_eq_true_eq, decide_eq_true_eq] at hq
            exact ⟨p, rfl, hq.1, hq.2⟩
    · rintro ⟨hmem, ht, p, hpc, hpt, hcl⟩
      refine ⟨hmem, ?_⟩
      unfold qualPure
      rw [hpc, Bool.and_eq_true]
      exact ⟨by simp [ht], by simp [hpt, hcl]⟩
  · intro hnil
    unfold findMoveOutcome
    rw [hpm, hpsn]
    dsimp only
    rw [hcol, hnil]
  · intro m hone
    unfold findMoveOutcome
    rw [hpm, hpsn]
    dsimp only
    rw [hcol, hone]
  · intro htwo
    unfold findMoveOutcome
    rw [hpm, hpsn]
    dsimp only
    rw [hcol]
    have hsub : ∀ m ∈ b.legalMoves.filter (qualPure b pt tgt), m ∈ b.legalMoves :=
      fun m hm => (List.mem_filter.mp hm).1
    cases hq : b.legalMoves.filter (qualPure b pt tgt) with
    | nil => rw [hq] at htwo; simp at htwo
    | cons m0 rest =>
      cases rest with
      | nil => rw [hq] at htwo; simp at htwo
      | cons m1 rest2 =>
        rw [hq] at hsub
        have hm0 : m0 ∈ b.legalMoves := hsub m0 (by simp)
        dsimp only
        rw [reportCandidates_ok (fun x hx => ⟨hsan x (hsub x hx), hsq x (hsub x hx)⟩)]
        obtain ⟨v, hv⟩ := isOk_exists (hsan m0 hm0)
        rw [hv, squareNameE_ok (hsq m0 hm0)]

/-! ## C6 — exception safety -/

theorem findMoveOutcome_isOk (b : Board) (ps tn : PyStr)
    (hok : ∀ m ∈ b.legalMoves, (b.pieceAt m.fromSq).isOk = true)
    (hsan : ∀ m ∈ b.legalMoves, (b.sanOf m).isOk = true)
    (hsq : ∀ m ∈ b.legalMoves, m.fromSq < 64) :
    ∃ o, findMoveOutcome b ps tn = .ok o := by
  unfold findMoveOutcome
  cases hpm : pieceMapLookup (pyUpper ps) with
  | none => exact ⟨_, rfl⟩
  | some pt =>
    cases hpsn : parseSquareName tn with
    | none => exact ⟨_, rfl⟩
    | some tgt =>
      dsimp only
      have hcol : collectQualifying b pt tgt b.legalMoves
          = .ok (b.legalMoves.filter (qualPure b pt tgt)) :=
        collect_eq_filter (fun m hm _ => hok m hm)
      rw [hcol]
      have hsub : ∀ m ∈ b.legalMoves.filter (qualPure b pt tgt), m ∈ b.legalMoves :=
        fun m hm => (List.mem_filter.mp hm).1
      cases hq : b.legalMoves.filter (qualPure b pt tgt) with
      | nil => exact ⟨_, rfl⟩
      | cons m0 rest =>
        cases rest with
        | nil => exact ⟨_, rfl⟩
        | cons m1 rest2 =>
          rw [hq] at hsub
          have hm0 : m0 ∈ b.legalMoves := hsub m0 (by simp)
          dsimp only
          rw [reportCandidates_ok (fun x hx => ⟨hsan x (hsub x hx), hsq x (hsub x hx)⟩)]
          obtain ⟨v, hv⟩ := isOk_exists (hsan m0 hm0)
          rw [hv, squareNameE_ok (hsq m0 hm0)]
          exact ⟨_, rfl⟩

theorem findMoveByPieceAndTarget_isOk (b : Board) (ps tn : PyStr)
    (hok : ∀ m ∈ b.legalMoves, (b.pieceAt m.fromSq).isOk = true)
    (hsan : ∀ m ∈ b.legalMoves, (b.sanOf m).isOk = true)
    (hsq : ∀ m ∈ b.legalMoves, m.fromSq < 64) :
    ∃ r, findMoveByPieceAndTarget b ps tn = .ok r := by
  obtain ⟨o, ho⟩ := findMoveOutcome_isOk b ps tn hok hsan hsq
  unfold findMoveByPieceAndTarget
  rw [ho]
  exact ⟨_, rfl⟩

theorem tryHumanLanguage_isOk (t : PyStr) (b : Board)
    (hok : ∀ m ∈ b.legalMoves, (b.pieceAt m.fromSq).isOk = true)
    (hsan : ∀ m ∈ b.legalMoves, (b.sanOf m).isOk = true)
    (hsq : ∀ m ∈ b.legalMoves, m.fromSq < 64) :
    ∃ r, tryHumanLanguage t b = .ok r := by
  unfold tryHumanLanguage
  dsimp only
  split
  · exact findMoveByPieceAndTarget_isOk b _ _ hok hsan hsq
  · split
    · split
      · exact ⟨_, rfl⟩
      · exact ⟨_, rfl⟩
    · exact ⟨_, rfl⟩
  · exact ⟨_, rfl⟩

/-- C6: for every input string and every position whose collaborator
behaves (piece lookup, San rendering and square naming succeed on legal
moves — true of any real position), `parse_move` returns normally with one
of its ordinary outcomes (`some move` or `none`); structural sub-parse
failures are absorbed inside the strategies, which the strategy
definitions encode by returning `none` at every wrapped call site. -/
theorem C6_no_exception_escape (t : PyStr) (b : Board)
    (hok : ∀ m ∈ b.legalMoves, (b.pieceAt m.fromSq).isOk = true)
    (hsan : ∀ m ∈ b.legalMoves, (b.sanOf m).isOk = true)
    (hsq : ∀ m ∈ b.legalMoves, m.fromSq < 64) :
    ∃ r, parse_move t b = .ok r := by
  unfold parse_move parseAfterPreprocess
  dsimp only
  split
  · exact ⟨_, rfl⟩
  · split
    · exact ⟨_, rfl⟩
    · split
      · exact ⟨_, rfl⟩
      · obtain ⟨r3, hr3⟩ := tryHumanLanguage_isOk
          (pyLower (convertCyrillicToLatin (pyStrip t))) b hok hsan hsq
        rw [hr3]
        dsimp only
        split
        · exact ⟨_, rfl⟩
        · split
          · exact ⟨_, rfl⟩
          · exact ⟨_, rfl⟩

/-! ## C8 — bare square name defaults to pawn -/

theorem variantLoop_none_or {b : Board} {M : Move} :
    ∀ {vs : List PyStr}, (∀ v ∈ vs, b.parseSan v = none ∨ b.parseSan v = some M) →
      variantLoop b vs = none ∨ variantLoop b vs = some M := by
  intro vs
  induction vs with
  | nil => intro _; exact Or.inl rfl
  | cons v rest ih =>
    intro h
    rcases h v (by simp) with hv | hv
    · rw [variantLoop, hv]
      exact ih (fun w hw => h w (by simp [hw]))
    · rw [variantLoop, hv]
      dsimp only
      by_cases hb : moveBool M = true
      · rw [if_pos hb]
        exact Or.inr rfl
      · rw [if_neg hb]
        exact ih (fun w hw => h w (by simp [hw]))

theorem fromUci_none_of_short {s : PyStr} (h : s.length < 4) : fromUci s = none := by
  unfold fromUci
  rw [if_neg (fun he => by rw [he] at h; simp at h)]
  rw [if_neg (by
    intro hc
    rw [Bool.and_eq_true, decide_eq_true_eq] at hc
    omega)]
  rw [if_neg (by
    intro hc
    rw [Bool.and_eq_true, decide_eq_true_eq, decide_eq_true_eq] at hc
    omega)]

theorem findSquares_pair {f r : Char} (hf : isFileChar f = true)
    (hr : isRankChar r = true) : findSquares [f, r] = [[f, r]] := by
  rw [findSquares_eq_fsList]
  simp only [fsList]
  rw [if_pos (by simp [hf, hr])]

/-- C8: when exactly one pawn move of the side to move reaches square `s`
(the pawn filter returns the single move `M`) and the standard-notation
parser behaves (each case variant of the square name either fails or
returns `M` itself, as python-chess does in such a position), resolving the
bare square name returns that pawn's move: with no piece phrase in the
token, the piece type is assumed to be pawn. -/
theorem C8_bare_square_defaults_to_pawn (b : Board) (s : Nat) (M : Move)
    (hs : s < 64)
    (hfilter : b.legalMoves.filter (qualPure b 1 s) = [M])
    (hok : ∀ m ∈ b.legalMoves, (b.pieceAt m.fromSq).isOk = true)
    (hstd : ∀ v ∈ [sqName s, pyCapitalize (sqName s), pyUpper (sqName s)],
      b.parseSan v = none ∨ b.parseSan v = some M)
    (hbool : moveBool M = true) :
    parse_move (sqName s) b = .ok (some M) := by
  have hascii := sqName_ascii ⟨s, hs⟩
  have hnons := sqName_nonspace ⟨s, hs⟩
  have hpre : parse_move (sqName s) b = parseAfterPreprocess (sqName s) b := by
    unfold parse_move
    rw [pyStrip_eq_self hnons, convert_ascii hascii]
  rw [hpre]
  unfold parseAfterPreprocess
  dsimp only
  rw [castling_ascii_none hascii b, if_neg (by decide)]
  have hhuman : tryHumanLanguage (sqName s) b = .ok (some M) := by
    unfold tryHumanLanguage
    rw [pieceScan_ascii_none hascii]
    dsimp only
    rw [stripStopWords_ascii hascii, pyStrip_eq_self hnons]
    obtain ⟨f, r, he, hf, hr⟩ := sqName_shape ⟨s, hs⟩
    rw [he, findSquares_pair hf hr, ← he]
    dsimp only
    unfold findMoveByPieceAndTarget findMoveOutcome
    rw [show pieceMapLookup (pyUpper ("P".toList)) = some 1 from rfl]
    rw [sqName_roundtrip ⟨s, hs⟩]
    dsimp only
    rw [collect_eq_filter (fun m hm _ => hok m hm), hfilter]
    rfl
  rcases variantLoop_none_or hstd with hv | hv
  · have hv' : tryStandardSan (sqName s) b = none := hv
    rw [hv', if_neg (by decide)]
    rw [sqName_lower_fix ⟨s, hs⟩]
    have huci : tryUciFormat (sqName s) b = none := by
      unfold tryUciFormat
      rw [fromUci_none_of_short (by simp [sqName])]
    rw [huci, if_neg (by decide)]
    rw [hhuman]
    dsimp only
    rw [if_pos (by simp [truthy, hbool])]
  · have hv' : tryStandardSan (sqName s) b = some M := hv
    rw [hv', if_pos (by simp [truthy, hbool])]

/-! ## C4 — long-algebraic (UCI) round trip -/

theorem squareNameE_inv {n : Nat} {v : PyStr} (h : squareNameE n = .ok v) :
    n < 64 ∧ v = sqName n := by
  unfold squareNameE at h
  split_ifs at h with h1
  · rw [Except.ok.injEq] at h
    exact ⟨h1, by rw [← h]; rfl⟩

theorem pieceSymbol_symbolIndex {p : Nat} {c : Char} (h : pieceSymbolChar p = .ok c) :
    symbolIndex c = some p := by
  unfold pieceSymbolChar at h
  split_ifs at h with h1 h2 h3 h4 h5 h6 <;>
    (rw [Except.ok.injEq] at h; subst h; simp_all [symbolIndex])

theorem pieceSymbol_mem {p : Nat} {c : Char} (h : pieceSymbolChar p = .ok c) :
    c ∈ (['p', 'n', 'b', 'r', 'q', 'k'] : List Char) := by
  unfold pieceSymbolChar at h
  split_ifs at h with h1 h2 h3 h4 h5 h6 <;>
    (rw [Except.ok.injEq] at h; subst h; simp)

theorem moveBool_of_ne {M : Move} (h : M.fromSq ≠ M.toSq) : moveBool M = true := by
  by_cases h0 : M.fromSq = 0
  · have ht : M.toSq ≠ 0 := fun he => h (by rw [h0, he])
    simp [moveBool, ht]
  · simp [moveBool, h0]

theorem sqName_head_file (n : Fin 64) :
    ∃ f r, sqName n.val = [f, r] ∧ isFileChar f = true ∧ isRankChar r = true :=
  sqName_shape n

/-- The `uci()` text of a proper board move parses back to exactly that
move under `from_uci`. -/
theorem fromUci_uciOf {M : Move} {u : PyStr} (hdrop : M.drop = none)
    (hft : M.fromSq ≠ M.toSq) (huci : uciOf M = .ok u) : fromUci u = some M := by
  obtain ⟨mf, mt, mp, md⟩ := M
  simp only at hft
  subst hdrop
  simp only [uciOf] at huci
  cases mp with
  | none =>
    rw [if_pos (moveBool_of_ne hft)] at huci
    cases hf : squareNameE mf with
    | error e => rw [hf] at huci; exact absurd huci (by simp)
    | ok fv =>
      cases ht : squareNameE mt with
      | error e => rw [hf, ht] at huci; exact absurd huci (by simp)
      | ok tv =>
        rw [hf, ht] at huci
        dsimp only at huci
        rw [Except.ok.injEq] at huci
        obtain ⟨hmf, hfv⟩ := squareNameE_inv hf
        obtain ⟨hmt, htv⟩ := squareNameE_inv ht
        subst hfv htv
        obtain ⟨f1, r1, he1, hff1, hrr1⟩ := sqName_shape ⟨mf, hmf⟩
        obtain ⟨f2, r2, he2, hff2, hrr2⟩ := sqName_shape ⟨mt, hmt⟩
        simp only at he1 he2
        rw [he1, he2] at huci
        subst huci
        unfold fromUci
        rw [if_neg (by
          intro he
          injection he with he1' _
          have := isFileChar_toNat hff1
          rw [he1'] at this
          simp at this)]
        rw [if_neg (by
          simp only [Bool.and_eq_true, decide_eq_true_eq]
          rintro ⟨-, hat⟩
          simp only [List.get?] at hat
          rw [Option.some_inj] at hat
          have := isRankChar_toNat hrr1
          rw [hat] at this
          simp at this)]
        rw [if_pos (by simp)]
        rw [show List.take 2 (([f1, r1] : PyStr) ++ [f2, r2]) = [f1, r1] from rfl,
          show List.take 2 (List.drop 2 (([f1, r1] : PyStr) ++ [f2, r2])) = [f2, r2] from rfl,
          ← he1, ← he2]
        rw [sqName_roundtrip ⟨mf, hmf⟩, sqName_roundtrip ⟨mt, hmt⟩]
        rw [he1, he2]
        rw [show List.drop 4 (([f1, r1] : PyStr) ++ [f2, r2]) = [] from rfl]
        dsimp only
        rw [if_neg hft]
  | some p =>
    cases hf : squareNameE mf with
    | error e => rw [hf] at huci; exact absurd huci (by simp)
    | ok fv =>
      cases ht : squareNameE mt with
      | error e => rw [hf, ht] at huci; exact absurd huci (by simp)
      | ok tv =>
        cases hc : pieceSymbolChar p with
        | error e =>
          dsimp only at huci
          rw [hf, ht, hc] at huci
          exact absurd huci (by simp)
        | ok c =>
          dsimp only at huci
          rw [hf, ht, hc] at huci
          dsimp only at huci
          rw [Except.ok.injEq] at huci
          obtain ⟨hmf, hfv⟩ := squareNameE_inv hf
          obtain ⟨hmt, htv⟩ := squareNameE_inv ht
          subst hfv htv
          obtain ⟨f1, r1, he1, hff1, hrr1⟩ := sqName_shape ⟨mf, hmf⟩
          obtain ⟨f2, r2, he2, hff2, hrr2⟩ := sqName_shape ⟨mt, hmt⟩
          simp only at he1 he2
          rw [he1, he2] at huci
          subst huci
          unfold fromUci
          rw [if_neg (by
            intro he
            injection he with he1' _
            have := isFileChar_toNat hff1
            rw [he1'] at this
            simp at this)]
          rw [if_neg (by
            simp only [Bool.and_eq_true, decide_eq_true_eq]
            rintro ⟨hlen, -⟩
            simp at hlen)]
          rw [if_pos (by simp)]
          rw [show List.take 2 ((([f1, r1] : PyStr) ++ [f2, r2]) ++ [c]) = [f1, r1] from rfl,
            show List.take 2 (List.drop 2 ((([f1, r1] : PyStr) ++ [f2, r2]) ++ [c]))
              = [f2, r2] from rfl,
            ← he1, ← he2]
          rw [sqName_roundtrip ⟨mf, hmf⟩, sqName_roundtrip ⟨mt, hmt⟩]
          rw [he1, he2]
          rw [show List.drop 4 ((([f1, r1] : PyStr) ++ [f2, r2]) ++ [c]) = [c] from rfl]
          dsimp only
          rw [pieceSymbol_symbolIndex hc]
          dsimp only
          rw [if_neg hft]

theorem uciOf_shape {M : Move} {u : PyStr} (hdrop : M.drop = none)
    (hft : M.fromSq ≠ M.toSq) (huci : uciOf M = .ok u) :
    M.fromSq < 64 ∧ M.toSq < 64 ∧
      (u = sqName M.fromSq ++ sqName M.toSq ∨
        ∃ c, c ∈ (['p', 'n', 'b', 'r', 'q', 'k'] : List Char) ∧
          u = (sqName M.fromSq ++ sqName M.toSq) ++ [c]) := by
  obtain ⟨mf, mt, mp, md⟩ := M
  simp only at hft ⊢
  subst hdrop
  simp only [uciOf] at huci
  cases mp with
  | none =>
    rw [if_pos (moveBool_of_ne hft)] at huci
    cases hf : squareNameE mf with
    | error e => rw [hf] at huci; exact absurd huci (by simp)
    | ok fv =>
      cases ht : squareNameE mt with
      | error e => rw [hf, ht] at huci; exact absurd huci (by simp)
      | ok tv =>
        rw [hf, ht] at huci
        dsimp only at huci
        rw [Except.ok.injEq] at huci
        obtain ⟨hmf, hfv⟩ := squareNameE_inv hf
        obtain ⟨hmt, htv⟩ := squareNameE_inv ht
        subst hfv htv huci
        exact ⟨hmf, hmt, Or.inl rfl⟩
  | some p =>
    cases hf : squareNameE mf with
    | error e => rw [hf] at huci; exact absurd huci (by simp)
    | ok fv =>
      cases ht : squareNameE mt with
      | error e => rw [hf, ht] at huci; exact absurd huci (by simp)
      | ok tv =>
        cases hc : pieceSymbolChar p with
        | error e =>
          dsimp only at huci
          rw [hf, ht, hc] at huci
          exact absurd huci (by simp)
        | ok c =>
          dsimp only at huci
          rw [hf, ht, hc] at huci
          dsimp only at huci
          rw [Except.ok.injEq] at huci
          obtain ⟨hmf, hfv⟩ := squareNameE_inv hf
          obtain ⟨hmt, htv⟩ := squareNameE_inv ht
          subst hfv htv huci
          exact ⟨hmf, hmt, Or.inr ⟨c, pieceSymbol_mem hc, rfl⟩⟩

theorem uciOf_chars {M : Move} {u : PyStr} (hdrop : M.drop = none)
    (hft : M.fromSq ≠ M.toSq) (huci : uciOf M = .ok u) :
    (∀ c ∈ u, c.toNat < 128) ∧ (∀ c ∈ u, isPySpace c = false) ∧ pyLower u = u := by
  obtain ⟨hmf, hmt, hsh⟩ := uciOf_shape hdrop hft huci
  have hpro : ∀ x ∈ (['p', 'n', 'b', 'r', 'q', 'k'] : List Char),
      x.toNat < 128 ∧ isPySpace x = false ∧ pyLowerChar x = x := by decide
  rcases hsh with hu | ⟨c, hcm, hu⟩
  · subst hu
    refine ⟨?_, ?_, ?_⟩
    · intro c hc
      rcases List.mem_append.mp hc with hc | hc
      · exact sqName_ascii ⟨M.fromSq, hmf⟩ c hc
      · exact sqName_ascii ⟨M.toSq, hmt⟩ c hc
    · intro c hc
      rcases List.mem_append.mp hc with hc | hc
      · exact sqName_nonspace ⟨M.fromSq, hmf⟩ c hc
      · exact sqName_nonspace ⟨M.toSq, hmt⟩ c hc
    · unfold pyLower
      rw [List.map_append]
      rw [show List.map pyLowerChar (sqName M.fromSq) = pyLower (sqName M.fromSq) from rfl,
        show List.map pyLowerChar (sqName M.toSq) = pyLower (sqName M.toSq) from rfl,
        sqName_lower_fix ⟨M.fromSq, hmf⟩, sqName_lower_fix ⟨M.toSq, hmt⟩]
  · subst hu
    obtain ⟨hca, hcs, hcl⟩ := hpro c hcm
    refine ⟨?_, ?_, ?_⟩
    · intro x hx
      rcases List.mem_append.mp hx with hx | hx
      · rcases List.mem_append.mp hx with hx | hx
        · exact sqName_ascii ⟨M.fromSq, hmf⟩ x hx
        · exact sqName_ascii ⟨M.toSq, hmt⟩ x hx
      · simp only [List.mem_singleton] at hx
        subst hx
        exact hca
    · intro x hx
      rcases List.mem_append.mp hx with hx | hx
      · rcases List.mem_append.mp hx with hx | hx
        · exact sqName_nonspace ⟨M.fromSq, hmf⟩ x hx
        · exact sqName_nonspace ⟨M.toSq, hmt⟩ x hx
      · simp only [List.mem_singleton] at hx
        subst hx
        exact hcs
    · unfold pyLower
      rw [List.map_append, List.map_append]
      rw [show List.map pyLowerChar (sqName M.fromSq) = pyLower (sqName M.fromSq) from rfl,
        show List.map pyLowerChar (sqName M.toSq) = pyLower (sqName M.toSq) from rfl,
        sqName_lower_fix ⟨M.fromSq, hmf⟩, sqName_lower_fix ⟨M.toSq, hmt⟩]
      rw [show List.map pyLowerChar [c] = [pyLowerChar c] from rfl, hcl]

/-- C4: resolving the long-algebraic (UCI) text of any legal board move —
origin square, destination square, optional promotion suffix — returns
exactly that move.  The collaborator hypotheses state that the move is
legal and proper (non-null, no drop), that its `uci()` text renders, and
that the algebraic parser, when it accepts a case variant of that text at
all, returns the same move (as python-chess does for fully-specified
origin-destination strings). -/
theorem C4_uci_roundtrip (b : Board) (M : Move) (u : PyStr)
    (hmem : M ∈ b.legalMoves) (hdrop : M.drop = none) (hft : M.fromSq ≠ M.toSq)
    (huci : uciOf M = .ok u)
    (hstd : ∀ v ∈ [u, pyCapitalize u, pyUpper u],
      b.parseSan v = none ∨ b.parseSan v = some M) :
    parse_move u b = .ok (some M) := by
  obtain ⟨hascii, hnons, hlower⟩ := uciOf_chars hdrop hft huci
  have hfu : fromUci u = some M := fromUci_uciOf hdrop hft huci
  have hbool := moveBool_of_ne hft
  have hpre : parse_move u b = parseAfterPreprocess u b := by
    unfold parse_move
    rw [pyStrip_eq_self hnons, convert_ascii hascii]
  rw [hpre]
  unfold parseAfterPreprocess
  dsimp only
  rw [castling_ascii_none hascii b, if_neg (by decide)]
  rcases variantLoop_none_or hstd with hv | hv
  · have hv' : tryStandardSan u b = none := hv
    rw [hv', if_neg (by decide), hlower]
    have huf : tryUciFormat u b = some M := by
      unfold tryUciFormat
      rw [hfu]
      dsimp only
      rw [if_pos hmem]
    rw [huf, if_pos (by simp [truthy, hbool])]
  · have hv' : tryStandardSan u b = some M := hv
    rw [hv', if_pos (by simp [truthy, hbool])]

/-! ## C3 — standard-algebraic round trip and letter case -/

/-- White: Kg1, Pd3, Pf3; Black: Kg8, Pe4; White to move.  Both white pawns
can capture on e4, so the SAN texts are "dxe4" and "fxe4". -/
def pawnCaptureBoard : Board :=
  { legalMoves :=
      [{ fromSq := 19, toSq := 27 }, { fromSq := 19, toSq := 28 },
       { fromSq := 21, toSq := 29 }, { fromSq := 21, toSq := 28 },
       { fromSq := 6, toSq := 5 }, { fromSq := 6, toSq := 13 },
       { fromSq := 6, toSq := 14 }, { fromSq := 6, toSq := 7 },
       { fromSq := 6, toSq := 15 }],
    parseSan := sanLookup
      [("d4".toList, { fromSq := 19, toSq := 27 }),
       ("dxe4".toList, { fromSq := 19, toSq := 28 }),
       ("f4".toList, { fromSq := 21, toSq := 29 }),
       ("fxe4".toList, { fromSq := 21, toSq := 28 }),
       ("Kf1".toList, { fromSq := 6, toSq := 5 }),
       ("Kf2".toList, { fromSq := 6, toSq := 13 }),
       ("Kg2".toList, { fromSq := 6, toSq := 14 }),
       ("Kh1".toList, { fromSq := 6, toSq := 7 }),
       ("Kh2".toList, { fromSq := 6, toSq := 15 })],
    pieceAt := fun n =>
      .ok (if n = 19 then some { pieceType := 1, color := true }
        else if n = 21 then some { pieceType := 1, color := true }
        else if n = 28 then some { pieceType := 1, color := false }
        else if n = 6 then some { pieceType := 6, color := true }
        else if n = 62 then some { pieceType := 6, color := false }
        else none),
    sanOf := sanTable
      [({ fromSq := 19, toSq := 27 }, "d4".toList),
       ({ fromSq := 19, toSq := 28 }, "dxe4".toList),
       ({ fromSq := 21, toSq := 29 }, "f4".toList),
       ({ fromSq := 21, toSq := 28 }, "fxe4".toList),
       ({ fromSq := 6, toSq := 5 }, "Kf1".toList),
       ({ fromSq := 6, toSq := 13 }, "Kf2".toList),
       ({ fromSq := 6, toSq := 14 }, "Kg2".toList),
       ({ fromSq := 6, toSq := 7 }, "Kh1".toList),
       ({ fromSq := 6, toSq := 15 }, "Kh2".toList)],
    turn := true }

/-- C3 counterexample: in `pawnCaptureBoard` the legal move d3xe4 has SAN
text "dxe4", whose first-letter-capitalized variant is "Dxe4" — a letter-
case variant of the SAN text — yet resolving "Dxe4" returns Unrecognized
(`none`) rather than the move: no capitalization variant tried by the
standard-notation strategy is valid SAN, and the natural-language fallback
then finds two pawn moves to e4 (dxe4 and fxe4) and reports ambiguity.
So the claim's "every letter-case variant" fails on the code. -/
theorem C3_san_case_variant_counterexample :
    ({ fromSq := 19, toSq := 28 } : Move) ∈ pawnCaptureBoard.legalMoves ∧
    pawnCaptureBoard.sanOf { fromSq := 19, toSq := 28 } = .ok ("dxe4".toList) ∧
    pyCapitalize ("dxe4".toList) = "Dxe4".toList ∧
    pawnCaptureBoard.parseSan ("dxe4".toList) = some { fromSq := 19, toSq := 28 } ∧
    parse_move ("Dxe4".toList) pawnCaptureBoard = .ok none :=
  ⟨by decide, rfl, by decide, rfl, rfl⟩

theorem variantLoop_hits {b : Board} {M : Move} (hbool : moveBool M = true) :
    ∀ {vs : List PyStr}, (∀ w ∈ vs, b.parseSan w = none ∨ b.parseSan w = some M) →
      (∃ w ∈ vs, b.parseSan w = some M) → variantLoop b vs = some M := by
  intro vs
  induction vs with
  | nil =>
    rintro _ ⟨w, hw, _⟩
    simp at hw
  | cons v rest ih =>
    rintro h ⟨w, hw, hws⟩
    rcases h v (by simp) with hv | hv
    · rw [variantLoop, hv]
      refine ih (fun x hx => h x (by simp [hx])) ⟨w, ?_, hws⟩
      rcases List.mem_cons.mp hw with rfl | hw
      · rw [hv] at hws
        exact absurd hws (by simp)
      · exact hw
    · rw [variantLoop, hv]
      dsimp only
      rw [if_pos hbool]

/-- C3 (amended): the standard-notation strategy resolves a token to the
move of the FIRST case variant — the token as written, then with its first
letter capitalized and the rest lower-cased, then fully upper-cased — that
the algebraic parser accepts as a proper move.  Hence resolving the SAN
text of a legal move as written returns exactly that move (first case of
the hypothesis), and a lower-cased variant such as "nf3" returns the move
of its capitalization "Nf3" provided the as-written form parses to nothing
(second case).  When the as-written form itself names a move — "bxc3"
where both the pawn capture bxc3 and a bishop move Bxc3 are legal — that
first move is returned, even though the capitalized variant names another
legal move; and a variant none of whose three forms is accepted, such as
"Dxe4", is not resolved by this strategy at all (see the
counterexample). -/
theorem C3_san_roundtrip_amended (b : Board) (M : Move) (v : PyStr)
    (hbool : moveBool M = true)
    (hvc : ∀ c ∈ v, c.toNat < 128 ∧ isPySpace c = false)
    (hfirst : b.parseSan v = some M ∨
      ((b.parseSan v = none ∨ ∃ m, b.parseSan v = some m ∧ moveBool m = false) ∧
        (b.parseSan (pyCapitalize v) = some M ∨
          ((b.parseSan (pyCapitalize v) = none ∨
              ∃ m, b.parseSan (pyCapitalize v) = some m ∧ moveBool m = false) ∧
            b.parseSan (pyUpper v) = some M)))) :
    parse_move v b = .ok (some M) := by
  have hvascii : ∀ c ∈ v, c.toNat < 128 := fun c hc => (hvc c hc).1
  have hvnons : ∀ c ∈ v, isPySpace c = false := fun c hc => (hvc c hc).2
  have hpre : parse_move v b = parseAfterPreprocess v b := by
    unfold parse_move
    rw [pyStrip_eq_self hvnons, convert_ascii hvascii]
  rw [hpre]
  unfold parseAfterPreprocess
  dsimp only
  rw [castling_ascii_none hvascii b, if_neg (by decide)]
  have hv' : tryStandardSan v b = some M := by
    unfold tryStandardSan
    rcases hfirst with h1 | ⟨hr1, h2⟩
    · rw [variantLoop, h1]
      dsimp only
      rw [if_pos hbool]
    · have step1 : variantLoop b [v, pyCapitalize v, pyUpper v]
          = variantLoop b [pyCapitalize v, pyUpper v] := by
        rcases hr1 with hn | ⟨m, hm, hmb⟩
        · rw [variantLoop, hn]
        · rw [variantLoop, hm]
          dsimp only
          rw [if_neg (by simp [hmb])]
      rw [step1]
      rcases h2 with h2 | ⟨hr2, h3⟩
      · rw [variantLoop, h2]
        dsimp only
        rw [if_pos hbool]
      · have step2 : variantLoop b [pyCapitalize v, pyUpper v]
            = variantLoop b [pyUpper v] := by
          rcases hr2 with hn | ⟨m, hm, hmb⟩
          · rw [variantLoop, hn]
          · rw [variantLoop, hm]
            dsimp only
            rw [if_neg (by simp [hmb])]
        rw [step2, variantLoop, h3]
        dsimp only
        rw [if_pos hbool]
  rw [hv', if_pos (by simp [truthy, hbool])]

/-! ## C7 — three or more squares with no piece phrase -/

theorem stripStopWords_length_le (t : PyStr) :
    (stripStopWords t).length ≤ t.length := by
  unfold stripStopWords
  calc (pyStrip (pyReplace (pyReplace (pyReplace t ("на".toList) [' ']) ("з".toList) [' '])
          ("в".toList) [' '])).length
      ≤ (pyReplace (pyReplace (pyReplace t ("на".toList) [' ']) ("з".toList) [' '])
          ("в".toList) [' ']).length := pyStrip_length_le _
    _ ≤ (pyReplace (pyReplace t ("на".toList) [' ']) ("з".toList) [' ']).length :=
        pyReplace_length_le (by decide)
    _ ≤ (pyReplace t ("на".toList) [' ']).length := pyReplace_length_le (by decide)
    _ ≤ t.length := pyReplace_length_le (by decide)

/-- C7: when the natural-language strategy extracts three or more
board-square substrings from a token in which no piece-name phrase is
recognized (and the algebraic parser rejects the token's capitalization
variants, as it must for a token that long), resolution returns
Unrecognized: the interpreter does not select two of the extracted squares
as origin and destination.  Every later strategy is also proved unable to
fire: the UCI strategy because the token is too long, the dashed strategy
because its two stripped halves would have to concatenate to an accepted
five-character string, which cannot contain three squares. -/
theorem C7_three_squares_unrecognized (t : PyStr) (b : Board)
    (hstd : ∀ v ∈ [convertCyrillicToLatin (pyStrip t),
        pyCapitalize (convertCyrillicToLatin (pyStrip t)),
        pyUpper (convertCyrillicToLatin (pyStrip t))], b.parseSan v = none)
    (hpiece : pieceScan (pyLower (convertCyrillicToLatin (pyStrip t)))
        PIECE_NAMES_UK = none)
    (hcount : 3 ≤ (findSquares (stripStopWords
        (pyLower (convertCyrillicToLatin (pyStrip t))))).length) :
    parse_move t b = .ok none := by
  unfold parse_move parseAfterPreprocess
  dsimp only
  rw [castling_strategy_dead (pyStrip t) b, if_neg (by decide)]
  have hstd' : tryStandardSan (convertCyrillicToLatin (pyStrip t)) b = none :=
    variantLoop_none hstd
  rw [hstd', if_neg (by decide)]
  have h1 : 2 * (findSquares (stripStopWords
      (pyLower (convertCyrillicToLatin (pyStrip t))))).length
      ≤ (stripStopWords (pyLower (convertCyrillicToLatin (pyStrip t)))).length := by
    rw [findSquares_eq_fsList]
    exact two_mul_fsList_le _
  have h2 := stripStopWords_length_le (pyLower (convertCyrillicToLatin (pyStrip t)))
  have hlen6 : 6 ≤ (pyLower (convertCyrillicToLatin (pyStrip t))).length := by omega
  have huci : tryUciFormat (pyLower (convertCyrillicToLatin (pyStrip t))) b = none := by
    unfold tryUciFormat
    rw [fromUci_long_none hlen6]
  rw [huci, if_neg (by decide)]
  have hhum : tryHumanLanguage (pyLower (convertCyrillicToLatin (pyStrip t))) b
      = .ok none := by
    unfold tryHumanLanguage
    rw [hpiece]
    dsimp only
    cases hsq : findSquares (stripStopWords
        (pyLower (convertCyrillicToLatin (pyStrip t)))) with
    | nil => simp [hsq] at hcount
    | cons a r1 =>
      cases r1 with
      | nil => simp [hsq] at hcount
      | cons a2 r2 =>
        cases r2 with
        | nil => simp [hsq] at hcount
        | cons a3 r3 => rfl
  rw [hhum]
  dsimp only
  rw [if_neg (by decide)]
  cases hd : tryDashFormat (pyLower (convertCyrillicToLatin (pyStrip t))) b with
  | none => rw [if_neg (by decide)]
  | some m =>
    have hb := dash_squares_bound hd
    rw [findSquares_eq_fsList] at hcount
    omega

/-! ## C9 — the interpreter never mutates the position

To state mutation-freedom, the collaborator is re-modelled with an explicit
position state `σ` threaded through every board-method call in the exact
order the source makes them (`legal_moves`, `parse_san`, `piece_at`,
`san`, `turn`); pure module-level helpers (`from_uci`, `parse_square`,
`square_name`, the regexes and string methods) do not touch the position.
`parse_moveS` is the same strategy chain with this threading.  The claim
is settled by proving that when every method is read-only, the run returns
the state it was given, and computes exactly what the stateless model
computes on the projected board. -/

structure SBoard (σ : Type) where
  legalMovesS : σ → List Move × σ
  parseSanS : PyStr → σ → Option Move × σ
  pieceAtS : Nat → σ → Except Unit (Option Piece) × σ
  sanS : Move → σ → Except Unit PyStr × σ
  turnS : σ → Bool × σ

/-- Every board method leaves the position state unchanged (the collaborator
contract: these are queries). -/
def readOnly {σ : Type} (B : SBoard σ) : Prop :=
  (∀ s, (B.legalMovesS s).2 = s) ∧ (∀ t s, (B.parseSanS t s).2 = s) ∧
  (∀ n s, (B.pieceAtS n s).2 = s) ∧ (∀ m s, (B.sanS m s).2 = s) ∧
  (∀ s, (B.turnS s).2 = s)

/-- The stateless board seen at state `s`. -/
def pureBoard {σ : Type} (B : SBoard σ) (s : σ) : Board :=
  { legalMoves := (B.legalMovesS s).1,
    parseSan := fun t => (B.parseSanS t s).1,
    pieceAt := fun n => (B.pieceAtS n s).1,
    sanOf := fun m => (B.sanS m s).1,
    turn := (B.turnS s).1 }

def castlingLoopS {σ : Type} (B : SBoard σ) (tl : PyStr) :
    List (PyStr × PyStr) → σ → Option Move × σ
  | [], s => (none, s)
  | (name, sanText) :: rest, s =>
    if strContains tl name then
      let r := B.parseSanS sanText s
      match r.1 with
      | some m => (some m, r.2)
      | none => castlingLoopS B tl rest r.2
    else castlingLoopS B tl rest s

def tryCastlingUkrainianS {σ : Type} (t : PyStr) (B : SBoard σ) (s : σ) :
    Option Move × σ :=
  castlingLoopS B (pyLower t) castlingNames s

def variantLoopS {σ : Type} (B : SBoard σ) : List PyStr → σ → Option Move × σ
  | [], s => (none, s)
  | v :: rest, s =>
    let r := B.parseSanS v s
    match r.1 with
    | some m => if moveBool m then (some m, r.2) else variantLoopS B rest r.2
    | none => variantLoopS B rest r.2

def tryStandardSanS {σ : Type} (t : PyStr) (B : SBoard σ) (s : σ) : Option Move × σ :=
  variantLoopS B [t, pyCapitalize t, pyUpper t] s

def tryUciFormatS {σ : Type} (t : PyStr) (B : SBoard σ) (s : σ) : Option Move × σ :=
  match fromUci t with
  | some m =>
    let r := B.legalMovesS s
    if m ∈ r.1 then (some m, r.2) else (none, r.2)
  | none => (none, s)

def tryDashFormatS {σ : Type} (t : PyStr) (B : SBoard σ) (s : σ) : Option Move × σ :=
  if '-' ∈ t then
    match splitOnChar '-' t with
    | [p1, p2] =>
      match fromUci (pyStrip p1 ++ pyStrip p2) with
      | some m =>
        let r := B.legalMovesS s
        if m ∈ r.1 then (some m, r.2) else (none, r.2)
      | none => (none, s)
    | _ => (none, s)
  else (none, s)

def collectQualifyingS {σ : Type} (B : SBoard σ) (pt tgt : Nat) :
    List Move → σ → Except Unit (List Move) × σ
  | [], s => (.ok [], s)
  | m :: rest, s =>
    if m.toSq = tgt then
      let r := B.pieceAtS m.fromSq s
      match r.1 with
      | .error e => (.error e, r.2)
      | .ok op =>
        match op with
        | some p =>
          if p.pieceType = pt then
            let rt := B.turnS r.2
            let rc := collectQualifyingS B pt tgt rest rt.2
            match rc.1 with
            | .error e => (.error e, rc.2)
            | .ok tail =>
              (if p.color = rt.1 then .ok (m :: tail) else .ok tail, rc.2)
          else collectQualifyingS B pt tgt rest r.2
        | none => collectQualifyingS B pt tgt rest r.2
    else collectQualifyingS B pt tgt rest s

def reportCandidatesS {σ : Type} (B : SBoard σ) :
    List Move → σ → Except Unit (List (Move × Nat)) × σ
  | [], s => (.ok [], s)
  | m :: rest, s =>
    let r := B.sanS m s
    match r.1 with
    | .error e => (.error e, r.2)
    | .ok _ =>
      match squareNameE m.fromSq with
      | .error e => (.error e, r.2)
      | .ok _ =>
        let rc := reportCandidatesS B rest r.2
        match rc.1 with
        | .error e => (.error e, rc.2)
        | .ok tail => (.ok ((m, m.fromSq) :: tail), rc.2)

def findMoveOutcomeS {σ : Type} (B : SBoard σ) (pieceSymbol toName : PyStr) (s : σ) :
    Except Unit ParseOutcome × σ :=
  match pieceMapLookup (pyUpper pieceSymbol) with
  | none => (.ok .unrecognized, s)
  | some pt =>
    match parseSquareName toName with
    | none => (.ok .unrecognized, s)
    | some tgt =>
      let rl := B.legalMovesS s
      let rc := collectQualifyingS B pt tgt rl.1 rl.2
      match rc.1 with
      | .error e => (.error e, rc.2)
      | .ok possible =>
        match possible with
        | [] => (.ok .unrecognized, rc.2)
        | [m] => (.ok (.resolved m), rc.2)
        | m0 :: _ :: _ =>
          let rr := reportCandidatesS B possible rc.2
          match rr.1 with
          | .error e => (.error e, rr.2)
          | .ok pairs =>
            let rs := B.sanS m0 rr.2
            match rs.1 with
            | .error e => (.error e, rs.2)
            | .ok _ =>
              match squareNameE m0.fromSq with
              | .error e => (.error e, rs.2)
              | .ok _ => (.ok (.ambiguous pairs), rs.2)

def findMoveByPieceAndTargetS {σ : Type} (B : SBoard σ) (pieceSymbol toName : PyStr)
    (s : σ) : Except Unit (Option Move) × σ :=
  let r := findMoveOutcomeS B pieceSymbol toName s
  ((r.1.map fun o => match o with | .resolved m => some m | _ => none), r.2)

def tryHumanLanguageS {σ : Type} (t : PyStr) (B : SBoard σ) (s : σ) :
    Except Unit (Option Move) × σ :=
  let scanned := pieceScan t PIECE_NAMES_UK
  let pieceSymbol := match scanned with | some (sym, _) => sym | none => "P".toList
  let t1 := match scanned with | some (_, rest) => rest | none => t
  let squares := findSquares (stripStopWords t1)
  match squares with
  | [toName] => findMoveByPieceAndTargetS B pieceSymbol toName s
  | [fromName, toName] =>
    match fromUci (fromName ++ toName) with
    | some m =>
      let r := B.legalMovesS s
      if m ∈ r.1 then (.ok (some m), r.2) else (.ok none, r.2)
    | none => (.ok none, s)
  | _ => (.ok none, s)

def parse_moveS {σ : Type} (moveText : PyStr) (B : SBoard σ) (s : σ) :
    Except Unit (Option Move) × σ :=
  let t0 := convertCyrillicToLatin (pyStrip moveText)
  let r0 := tryCastlingUkrainianS t0 B s
  if truthy r0.1 then (.ok r0.1, r0.2) else
  let r1 := tryStandardSanS t0 B r0.2
  if truthy r1.1 then (.ok r1.1, r1.2) else
  let t1 := pyLower t0
  let r2 := tryUciFormatS t1 B r1.2
  if truthy r2.1 then (.ok r2.1, r2.2) else
  let r3 := tryHumanLanguageS t1 B r2.2
  match r3.1 with
  | .error e => (.error e, r3.2)
  | .ok rm =>
    if truthy rm then (.ok rm, r3.2) else
    let r4 := tryDashFormatS t1 B r3.2
    if truthy r4.1 then (.ok r4.1, r4.2) else
    (.ok none, r4.2)

theorem castlingLoopS_eq {σ : Type} {B : SBoard σ} (hro : readOnly B) (tl : PyStr) :
    ∀ (l : List (PyStr × PyStr)) (s : σ),
      castlingLoopS B tl l s = (castlingLoop (pureBoard B s) tl l, s) := by
  intro l
  induction l with
  | nil => intro s; rfl
  | cons p ps ih =>
    intro s
    obtain ⟨nm, sn⟩ := p
    rw [castlingLoopS, castlingLoop]
    by_cases hc : strContains tl nm = true
    · rw [if_pos hc, if_pos hc]
      have h2 : (B.parseSanS sn s).2 = s := hro.2.1 sn s
      have hps : (pureBoard B s).parseSan sn = (B.parseSanS sn s).1 := rfl
      rw [hps]
      cases hp : (B.parseSanS sn s).1 with
      | some m =>
        dsimp only
        rw [h2, hp]
      | none =>
        dsimp only
        rw [h2, hp, ih s]
    · rw [if_neg hc, if_neg hc]
      exact ih s

theorem variantLoopS_eq {σ : Type} {B : SBoard σ} (hro : readOnly B) :
    ∀ (vs : List PyStr) (s : σ),
      variantLoopS B vs s = (variantLoop (pureBoard B s) vs, s) := by
  intro vs
  induction vs with
  | nil => intro s; rfl
  | cons v rest ih =>
    intro s
    rw [variantLoopS, variantLoop]
    have h2 : (B.parseSanS v s).2 = s := hro.2.1 v s
    have hps : (pureBoard B s).parseSan v = (B.parseSanS v s).1 := rfl
    rw [hps]
    cases hp : (B.parseSanS v s).1 with
    | some m =>
      dsimp only
      by_cases hb : moveBool m = true
      · rw [if_pos hb, if_pos hb, h2]
      · rw [if_neg hb, if_neg hb, h2]
        exact ih s
    | none =>
      dsimp only
      rw [h2]
      exact ih s

theorem tryUciFormatS_eq {σ : Type} {B : SBoard σ} (hro : readOnly B) (t : PyStr)
    (s : σ) : tryUciFormatS t B s = (tryUciFormat t (pureBoard B s), s) := by
  rw [tryUciFormatS, tryUciFormat]
  cases hf : fromUci t with
  | none => rfl
  | some m =>
    dsimp only
    have h2 : (B.legalMovesS s).2 = s := hro.1 s
    have hl : (pureBoard B s).legalMoves = (B.legalMovesS s).1 := rfl
    rw [hl, h2]
    by_cases hm : m ∈ (B.legalMovesS s).1
    · rw [if_pos hm, if_pos hm]
    · rw [if_neg hm, if_neg hm]

theorem tryDashFormatS_eq {σ : Type} {B : SBoard σ} (hro : readOnly B) (t : PyStr)
    (s : σ) : tryDashFormatS t B s = (tryDashFormat t (pureBoard B s), s) := by
  rw [tryDashFormatS, tryDashFormat]
  by_cases hd : '-' ∈ t
  · rw [if_pos hd, if_pos hd]
    cases hs : splitOnChar '-' t with
    | nil => rfl
    | cons p1 r1 =>
      cases r1 with
      | nil => rfl
      | cons p2 r2 =>
        cases r2 with
        | nil =>
          dsimp only
          cases hf : fromUci (pyStrip p1 ++ pyStrip p2) with
          | none => rfl
          | some m =>
            dsimp only
            have h2 : (B.legalMovesS s).2 = s := hro.1 s
            have hl : (pureBoard B s).legalMoves = (B.legalMovesS s).1 := rfl
            rw [hl, h2]
            by_cases hm : m ∈ (B.legalMovesS s).1
            · rw [if_pos hm, if_pos hm]
            · rw [if_neg hm, if_neg hm]
        | cons p3 r3 => rfl
  · rw [if_neg hd, if_neg hd]

theorem collectQualifyingS_eq {σ : Type} {B : SBoard σ} (hro : readOnly B)
    (pt tgt : Nat) :
    ∀ (l : List Move) (s : σ),
      collectQualifyingS B pt tgt l s = (collectQualifying (pureBoard B s) pt tgt l, s) := by
  intro l
  induction l with
  | nil => intro s; rfl
  | cons m rest ih =>
    intro s
    rw [collectQualifyingS, collectQualifying]
    by_cases ht : m.toSq = tgt
    · rw [if_pos ht, if_pos ht]
      have h2 : (B.pieceAtS m.fromSq s).2 = s := hro.2.2.1 m.fromSq s
      have hpa : (pureBoard B s).pieceAt m.fromSq = (B.pieceAtS m.fromSq s).1 := rfl
      rw [hpa]
      cases hp : (B.pieceAtS m.fromSq s).1 with
      | error e =>
        dsimp only
        rw [h2, hp]
      | ok op =>
        dsimp only
        rw [h2, hp]
        cases op with
        | none =>
          dsimp only
          rw [ih s]
          cases hrec : collectQualifying (pureBoard B s) pt tgt rest with
          | error e => rfl
          | ok tail => rfl
        | some p =>
          dsimp only
          by_cases hpt : p.pieceType = pt
          · rw [if_pos hpt]
            have h2t : (B.turnS s).2 = s := hro.2.2.2.2 s
            have htv : (pureBoard B s).turn = (B.turnS s).1 := rfl
            rw [h2t, ih s]
            cases hrec : collectQualifying (pureBoard B s) pt tgt rest with
            | error e => rfl
            | ok tail =>
              dsimp only
              by_cases hcl : p.color = (B.turnS s).1
              · rw [if_pos hcl, if_pos (by rw [htv]; simp [hpt, hcl])]
              · rw [if_neg hcl, if_neg (by rw [htv]; simp [hpt, hcl])]
          · rw [if_neg hpt, ih s]
            cases hrec : collectQualifying (pureBoard B s) pt tgt rest with
            | error e => rfl
            | ok tail =>
              dsimp only
              rw [if_neg (by simp [hpt])]
    · rw [if_neg ht, if_neg ht]
      exact ih s

theorem reportCandidatesS_eq {σ : Type} {B : SBoard σ} (hro : readOnly B) :
    ∀ (l : List Move) (s : σ),
      reportCandidatesS B l s = (reportCandidates (pureBoard B s) l, s) := by
  intro l
  induction l with
  | nil => intro s; rfl
  | cons m rest ih =>
    intro s
    rw [reportCandidatesS, reportCandidates]
    have h2 : (B.sanS m s).2 = s := hro.2.2.2.1 m s
    have hsv : (pureBoard B s).sanOf m = (B.sanS m s).1 := rfl
    rw [hsv]
    cases hp : (B.sanS m s).1 with
    | error e =>
      dsimp only
      rw [h2]
    | ok v =>
      dsimp only
      cases hn : squareNameE m.fromSq with
      | error e =>
        dsimp only
        rw [h2]
      | ok nm =>
        dsimp only
        rw [h2, ih s]
        cases hrec : reportCandidates (pureBoard B s) rest with
        | error e => rfl
        | ok tail => rfl

theorem tryCastlingUkrainianS_eq {σ : Type} {B : SBoard σ} (hro : readOnly B)
    (t : PyStr) (s : σ) :
    tryCastlingUkrainianS t B s = (tryCastlingUkrainian t (pureBoard B s), s) := by
  rw [tryCastlingUkrainianS, tryCastlingUkrainian]
  exact castlingLoopS_eq hro (pyLower t) castlingNames s

theorem tryStandardSanS_eq {σ : Type} {B : SBoard σ} (hro : readOnly B)
    (t : PyStr) (s : σ) :
    tryStandardSanS t B s = (tryStandardSan t (pureBoard B s), s) := by
  rw [tryStandardSanS, tryStandardSan]
  exact variantLoopS_eq hro [t, pyCapitalize t, pyUpper t] s

theorem findMoveOutcomeS_eq {σ : Type} {B : SBoard σ} (hro : readOnly B)
    (ps tn : PyStr) (s : σ) :
    findMoveOutcomeS B ps tn s = (findMoveOutcome (pureBoard B s) ps tn, s) := by
  rw [findMoveOutcomeS, findMoveOutcome]
  cases hpm : pieceMapLookup (pyUpper ps) with
  | none => rfl
  | some pt =>
    dsimp only
    cases hsq : parseSquareName tn with
    | none => rfl
    | some tgt =>
      dsimp only
      have h2l : (B.legalMovesS s).2 = s := hro.1 s
      have hl : (pureBoard B s).legalMoves = (B.legalMovesS s).1 := rfl
      rw [hl, h2l, collectQualifyingS_eq hro]
      cases hc : collectQualifying (pureBoard B s) pt tgt (B.legalMovesS s).1 with
      | error e => rfl
      | ok possible =>
        dsimp only
        cases possible with
        | nil => rfl
        | cons m0 rest =>
          cases rest with
          | nil => rfl
          | cons m1 rest2 =>
            dsimp only
            rw [reportCandidatesS_eq hro]
            cases hr : reportCandidates (pureBoard B s) (m0 :: m1 :: rest2) with
            | error e => rfl
            | ok pairs =>
              dsimp only
              have h2s : (B.sanS m0 s).2 = s := hro.2.2.2.1 m0 s
              have hsv : (pureBoard B s).sanOf m0 = (B.sanS m0 s).1 := rfl
              rw [hsv, h2s]
              cases hp : (B.sanS m0 s).1 with
              | error e => rfl
              | ok v =>
                dsimp only
                cases hn : squareNameE m0.fromSq with
                | error e => rfl
                | ok nm => rfl

theorem findMoveByPieceAndTargetS_eq {σ : Type} {B : SBoard σ} (hro : readOnly B)
    (ps tn : PyStr) (s : σ) :
    findMoveByPieceAndTargetS B ps tn s
      = (findMoveByPieceAndTarget (pureBoard B s) ps tn, s) := by
  rw [findMoveByPieceAndTargetS, findMoveByPieceAndTarget, findMoveOutcomeS_eq hro]

theorem tryHumanLanguageS_eq {σ : Type} {B : SBoard σ} (hro : readOnly B)
    (t : PyStr) (s : σ) :
    tryHumanLanguageS t B s = (tryHumanLanguage t (pureBoard B s), s) := by
  rw [tryHumanLanguageS, tryHumanLanguage]
  cases hscan : pieceScan t PIECE_NAMES_UK with
  | none =>
    dsimp only
    cases hsqs : findSquares (stripStopWords t) with
    | nil => rfl
    | cons a r =>
      cases r with
      | nil => exact findMoveByPieceAndTargetS_eq hro ("P".toList) a s
      | cons b r2 =>
        cases r2 with
        | nil =>
          dsimp only
          cases hf : fromUci (a ++ b) with
          | none => rfl
          | some m =>
            dsimp only
            have h2 : (B.legalMovesS s).2 = s := hro.1 s
            have hl : (pureBoard B s).legalMoves = (B.legalMovesS s).1 := rfl
            rw [hl, h2]
            by_cases hm : m ∈ (B.legalMovesS s).1
            · rw [if_pos hm, if_pos hm]
            · rw [if_neg hm, if_neg hm]
        | cons c r3 => rfl
  | some pr =>
    obtain ⟨sym, rest⟩ := pr
    dsimp only
    cases hsqs : findSquares (stripStopWords rest) with
    | nil => rfl
    | cons a r =>
      cases r with
      | nil => exact findMoveByPieceAndTargetS_eq hro sym a s
      | cons b r2 =>
        cases r2 with
        | nil =>
          dsimp only
          cases hf : fromUci (a ++ b) with
          | none => rfl
          | some m =>
            dsimp only
            have h2 : (B.legalMovesS s).2 = s := hro.1 s
            have hl : (pureBoard B s).legalMoves = (B.legalMovesS s).1 := rfl
            rw [hl, h2]
            by_cases hm : m ∈ (B.legalMovesS s).1
            · rw [if_pos hm, if_pos hm]
            · rw [if_neg hm, if_neg hm]
        | cons c r3 => rfl

/-- C9: `parse_move` never mutates the position.  Over a board whose
queries are arbitrary state transformers, if every query is read-only
(returns the state unchanged), then the whole parser returns the initial
state unchanged and its answer agrees with the pure parser evaluated on
the board as seen at that state: the interpreter only queries the
position, it never pushes or pops a move. -/
theorem C9_no_position_mutation {σ : Type} (B : SBoard σ) (hro : readOnly B)
    (t : PyStr) (s : σ) :
    parse_moveS t B s = (parse_move t (pureBoard B s), s) := by
  rw [parse_moveS, parse_move, parseAfterPreprocess]
  generalize convertCyrillicToLatin (pyStrip t) = u
  rw [tryCastlingUkrainianS_eq hro]
  dsimp only
  by_cases h0 : truthy (tryCastlingUkrainian u (pureBoard B s)) = true
  · rw [if_pos h0, if_pos h0]
  · rw [if_neg h0, if_neg h0, tryStandardSanS_eq hro]
    dsimp only
    by_cases h1 : truthy (tryStandardSan u (pureBoard B s)) = true
    · rw [if_pos h1, if_pos h1]
    · rw [if_neg h1, if_neg h1, tryUciFormatS_eq hro]
      dsimp only
      by_cases h2 : truthy (tryUciFormat (pyLower u) (pureBoard B s)) = true
      · rw [if_pos h2, if_pos h2]
      · rw [if_neg h2, if_neg h2, tryHumanLanguageS_eq hro]
        dsimp only
        cases h3 : tryHumanLanguage (pyLower u) (pureBoard B s) with
        | error e => rfl
        | ok rm =>
          dsimp only
          by_cases h4 : truthy rm = true
          · rw [if_pos h4, if_pos h4]
          · rw [if_neg h4, if_neg h4, tryDashFormatS_eq hro]
            dsimp only
            by_cases h5 : truthy (tryDashFormat (pyLower u) (pureBoard B s)) = true
            · rw [if_pos h5, if_pos h5]
            · rw [if_neg h5, if_neg h5]

/-! ## Concrete witnesses -/

/-- Two white knights (b1 and f3) can both reach d2: the disambiguation
witness position. -/
def c2Board : Board :=
  { legalMoves := [{ fromSq := 1, toSq := 11 }, { fromSq := 21, toSq := 11 }],
    parseSan := fun _ => none,
    pieceAt := fun n =>
      .ok (if n = 1 then some { pieceType := 2, color := true }
        else if n = 21 then some { pieceType := 2, color := true }
        else none),
    sanOf := fun _ => .ok ("N".toList),
    turn := true }

theorem C2_piece_target_disambiguation_witness :
    pieceMapLookup (pyUpper ("N".toList)) = some 2 ∧
    parseSquareName ("d2".toList) = some 11 ∧
    findMoveOutcome c2Board ("N".toList) ("d2".toList)
      = .ok (.ambiguous
          [({ fromSq := 1, toSq := 11 }, 1), ({ fromSq := 21, toSq := 11 }, 21)]) := by
  refine ⟨rfl, rfl, ?_⟩
  have h := (C2_piece_target_disambiguation c2Board ("N".toList) ("d2".toList) 2 11
    rfl rfl (by decide) (by decide) (by decide)).2.2.2 (by decide)
  rw [h]
  rfl

/-- A quiet position for the exception-safety witness: one pawn move, every
collaborator query total. -/
def c6Board : Board :=
  { legalMoves := [{ fromSq := 12, toSq := 28 }],
    parseSan := fun _ => none,
    pieceAt := fun n => .ok (if n = 12 then some { pieceType := 1, color := true } else none),
    sanOf := fun _ => .ok ("e4".toList),
    turn := true }

theorem C6_no_exception_escape_witness :
    (∀ m ∈ c6Board.legalMoves, (c6Board.pieceAt m.fromSq).isOk = true) ∧
    ∃ r, parse_move ("пішак на e4".toList) c6Board = .ok r :=
  ⟨by decide,
   C6_no_exception_escape ("пішак на e4".toList) c6Board (by decide) (by decide) (by decide)⟩

/-- Exactly one pawn (e2) can reach e4: the default-to-pawn witness
position. -/
def c8Board : Board :=
  { legalMoves := [{ fromSq := 12, toSq := 28 }],
    parseSan := fun _ => none,
    pieceAt := fun n => .ok (if n = 12 then some { pieceType := 1, color := true } else none),
    sanOf := fun _ => .ok ("e4".toList),
    turn := true }

theorem C8_bare_square_defaults_to_pawn_witness :
    c8Board.legalMoves.filter (qualPure c8Board 1 28) = [{ fromSq := 12, toSq := 28 }] ∧
    parse_move (sqName 28) c8Board = .ok (some { fromSq := 12, toSq := 28 }) :=
  ⟨by decide,
   C8_bare_square_defaults_to_pawn c8Board 28 { fromSq := 12, toSq := 28 }
     (by decide) (by decide) (by decide) (fun v hv => Or.inl rfl) (by decide)⟩

/-- One legal pawn push e2–e4, for the UCI round-trip witness. -/
def c4Board : Board :=
  { legalMoves := [{ fromSq := 12, toSq := 28 }],
    parseSan := fun _ => none,
    pieceAt := fun _ => .ok none,
    sanOf := fun _ => .error (),
    turn := true }

theorem C4_uci_roundtrip_witness :
    ({ fromSq := 12, toSq := 28 } : Move) ∈ c4Board.legalMoves ∧
    uciOf { fromSq := 12, toSq := 28 } = .ok ("e2e4".toList) ∧
    parse_move ("e2e4".toList) c4Board = .ok (some { fromSq := 12, toSq := 28 }) :=
  ⟨by decide, rfl,
   C4_uci_roundtrip c4Board { fromSq := 12, toSq := 28 } ("e2e4".toList)
     (by decide) rfl (by decide) rfl (fun v hv => Or.inl rfl)⟩

/-- A knight on g1 that can reach f3, whose SAN is "Nf3": witness for the
amended SAN round trip at the lower-case variant "nf3". -/
def c3Board : Board :=
  { legalMoves := [{ fromSq := 6, toSq := 21 }],
    parseSan := sanLookup [("Nf3".toList, { fromSq := 6, toSq := 21 })],
    pieceAt := fun n => .ok (if n = 6 then some { pieceType := 2, color := true } else none),
    sanOf := fun _ => .ok ("Nf3".toList),
    turn := true }

theorem C3_san_roundtrip_amended_witness :
    c3Board.parseSan ("nf3".toList) = none ∧
    c3Board.parseSan (pyCapitalize ("nf3".toList)) = some { fromSq := 6, toSq := 21 } ∧
    parse_move ("nf3".toList) c3Board = .ok (some { fromSq := 6, toSq := 21 }) :=
  ⟨rfl, by decide,
   C3_san_roundtrip_amended c3Board { fromSq := 6, toSq := 21 } ("nf3".toList)
     (by decide) (by decide) (Or.inr ⟨Or.inl rfl, Or.inl (by decide)⟩)⟩

/-- An empty-move position for the three-squares witness; the token
"e2 e4 e5" yields three extracted squares and no piece phrase. -/
def c7Board : Board :=
  { legalMoves := [],
    parseSan := fun _ => none,
    pieceAt := fun _ => .ok none,
    sanOf := fun _ => .error (),
    turn := true }

theorem C7_three_squares_unrecognized_witness :
    pieceScan (pyLower (convertCyrillicToLatin (pyStrip ("e2 e4 e5".toList))))
      PIECE_NAMES_UK = none ∧
    3 ≤ (findSquares (stripStopWords
      (pyLower (convertCyrillicToLatin (pyStrip ("e2 e4 e5".toList)))))).length ∧
    parse_move ("e2 e4 e5".toList) c7Board = .ok none :=
  ⟨rfl, by decide,
   C7_three_squares_unrecognized ("e2 e4 e5".toList) c7Board
     (fun v hv => rfl) rfl (by decide)⟩

/-- One legal move e2–e4 and an algebraic parser that rejects everything:
witness board for the legality of resolved moves. -/
def c10Board : Board :=
  { legalMoves := [{ fromSq := 12, toSq := 28 }],
    parseSan := fun _ => none,
    pieceAt := fun _ => .ok none,
    sanOf := fun _ => .error (),
    turn := true }

theorem C10_resolved_move_is_legal_witness :
    parse_move ("e2e4".toList) c10Board = .ok (some { fromSq := 12, toSq := 28 }) ∧
    ({ fromSq := 12, toSq := 28 } : Move) ∈ c10Board.legalMoves :=
  ⟨rfl,
   C10_resolved_move_is_legal ("e2e4".toList) c10Board
     (fun s m h => nomatch h) { fromSq := 12, toSq := 28 } rfl⟩

/-- A stateful board over `Nat` states whose queries all leave the state
unchanged: witness for the no-mutation theorem. -/
def c9State : SBoard Nat :=
  { legalMovesS := fun s => ([{ fromSq := 12, toSq := 28 }], s),
    parseSanS := fun _ s => (none, s),
    pieceAtS := fun _ s => (.ok none, s),
    sanS := fun _ s => (.error (), s),
    turnS := fun s => (true, s) }

theorem C9_no_position_mutation_witness :
    readOnly c9State ∧
    parse_moveS ("e4".toList) c9State 0
      = (parse_move ("e4".toList) (pureBoard c9State 0), 0) :=
  ⟨⟨fun s => rfl, fun t s => rfl, fun n s => rfl, fun m s => rfl, fun s => rfl⟩,
   C9_no_position_mutation c9State
     ⟨fun s => rfl, fun t s => rfl, fun n s => rfl, fun m s => rfl, fun s => rfl⟩
     ("e4".toList) 0⟩
